import Mathlib

/-!
# go-http-cannon: the concurrent dispatch engine of `main.go`

A shallow embedding of `src/src/main.go`.

* Go strings are lists of characters (`Str`); the separators the program
  splits on (`;` and `:`) are single ASCII characters.
* The three counters (`requestCount`, `total`, `errorCount`) are `int64` values
  that start at zero and only ever grow by one per attempt; they are natural
  numbers here.  The flags are Go `int`s and are integers here; the product
  `concurrency * numCPUs` is wrapped to 64 bits.
* The goroutines are a list of program counters; one `Event` is one atomic
  step of one goroutine (or of the timer / signal goroutine), and a run is a
  list of events, so every interleaving is a list of events.
* What the outside world answers (file system, URL parser, random multipart
  boundary, HTTP transport) is carried by the events.
-/

namespace Cannon

set_option maxRecDepth 100000

/-- Go strings, as lists of characters. -/
abbrev Str := List Char

/-! ## Strings: `strings.Split`, `strings.SplitN`, `strings.TrimSpace` -/

/-- Index of the first occurrence of `sep` (`strings.Index` for a one-byte separator). -/
def index (sep : Char) : Str → Option Nat
  | [] => none
  | c :: cs => if c = sep then some 0 else (index sep cs).map (· + 1)

/-- Number of occurrences of `sep` (`strings.Count` for a one-byte separator). -/
def count (sep : Char) : Str → Nat
  | [] => 0
  | c :: cs => (if c = sep then 1 else 0) + count sep cs

/-- The loop of Go's `genSplit`: cut at most `k` times, the rest is the last piece. -/
def genSplit (sep : Char) : Nat → Str → List Str
  | 0, s => [s]
  | k + 1, s =>
    match index sep s with
    | none => [s]
    | some m => s.take m :: genSplit sep k (s.drop (m + 1))

/-- Go's `strings.Split(s, sep)`: `n = Count(s, sep) + 1` pieces. -/
def split (s : Str) (sep : Char) : List Str :=
  genSplit sep (count sep s) s

/-- Go's `strings.SplitN(s, sep, n)` for `n > 0`: at most `n` pieces. -/
def splitN (s : Str) (sep : Char) (n : Nat) : List Str :=
  genSplit sep (n - 1) s

/-- Go's `unicode.IsSpace`. -/
def isSpace (c : Char) : Bool :=
  let n := c.toNat
  (9 ≤ n && n ≤ 13) || n = 32 || n = 0x85 || n = 0xA0 || n = 0x1680 ||
  (0x2000 ≤ n && n ≤ 0x200A) || n = 0x2028 || n = 0x2029 || n = 0x202F ||
  n = 0x205F || n = 0x3000

/-- Go's `strings.TrimSpace`: drop leading and trailing white space. -/
def trimSpace (s : Str) : Str :=
  ((s.dropWhile isSpace).reverse.dropWhile isSpace).reverse

/-! ## `net/http`: header keys, `Header.Set`, `Header.Get`, `NewRequest` -/

/-- Token characters of RFC 7230 (`validHeaderFieldByte` / `httpguts.IsTokenRune`). -/
def isTokenChar (c : Char) : Bool :=
  let n := c.toNat
  (48 ≤ n && n ≤ 57) || (65 ≤ n && n ≤ 90) || (97 ≤ n && n ≤ 122) ||
  n = 33 || n = 35 || n = 36 || n = 37 || n = 38 || n = 39 || n = 42 || n = 43 ||
  n = 45 || n = 46 || n = 94 || n = 95 || n = 96 || n = 124 || n = 126

/-- The canonicalising loop: upper case at the start and after `-`, lower case elsewhere. -/
def canonLoop : Bool → Str → Str
  | _, [] => []
  | upper, c :: cs =>
    let c1 := if upper && c.isLower then c.toUpper
              else if !upper && c.isUpper then c.toLower else c
    c1 :: canonLoop (c1 = '-') cs

/-- Go's `textproto.CanonicalMIMEHeaderKey`: a key with a byte that is not a
token character is returned unchanged. -/
def canonicalMIMEHeaderKey (s : Str) : Str :=
  if s.all isTokenChar then canonLoop true s else s

/-- Go's `http.Header`: canonical key to list of values. -/
abbrev Header := List (Str × List Str)

/-- Replace the value stored under `k`, or add the key (`h[k] = vs`). -/
def assign (k : Str) (vs : List Str) : Header → Header
  | [] => [(k, vs)]
  | (k1, v1) :: rest => if k1 = k then (k, vs) :: rest else (k1, v1) :: assign k vs rest

/-- Go's `Header.Set`: `h[CanonicalMIMEHeaderKey(key)] = []string{value}`. -/
def Header.set (h : Header) (key value : Str) : Header :=
  assign (canonicalMIMEHeaderKey key) [value] h

/-- Look a stored key up. -/
def lookupKey (k : Str) : Header → Option (List Str)
  | [] => none
  | (k1, v1) :: rest => if k1 = k then some v1 else lookupKey k rest

/-- Go's `Header.Get`: first value under the canonical key, or `""`. -/
def Header.get (h : Header) (key : Str) : Str :=
  match lookupKey (canonicalMIMEHeaderKey key) h with
  | some (v :: _) => v
  | _ => []

/-- What the request carries as its body. -/
inductive Body where
  /-- The literal payload: `strings.NewReader(requestBody)`. -/
  | reader (payload : Str)
  /-- The buffer filled by a `multipart.Writer` with one form file. -/
  | form (boundary field filename content : Str)
  deriving DecidableEq, Repr

/-- The fields of `http.Request` the program touches. -/
structure Request where
  method : Str
  url : Str
  header : Header
  body : Body
  deriving DecidableEq, Repr

/-- Go's `validMethod`: a non-empty token. -/
def validMethod (m : Str) : Bool :=
  !m.isEmpty && m.all isTokenChar

/-- Go's `http.NewRequest`: the empty method means `GET`; an invalid method or
a URL that does not parse gives `nil` and an error (`none`).  Whether the URL
parses is the answer `urlParses` of `url.Parse`. -/
def newRequest (method url : Str) (body : Body) (urlParses : Bool) : Option Request :=
  let m := if method.isEmpty then "GET".toList else method
  if !validMethod m then none
  else if !urlParses then none
  else some { method := m, url := url, header := [], body := body }

/-! ## `mime/multipart` and `path/filepath` -/

/-- Go's `(*multipart.Writer).FormDataContentType`: the boundary is quoted when it
holds a special character. -/
def formDataContentType (boundary : Str) : Str :=
  let b := if boundary.any (fun c => c ∈ "()<>@,;:\\\"/[]?= ".toList)
           then '"' :: boundary ++ ['"'] else boundary
  "multipart/form-data; boundary=".toList ++ b

/-- Go's `filepath.Base` on Unix. -/
def base (path : Str) : Str :=
  if path.isEmpty then ".".toList
  else
    let p := (path.reverse.dropWhile (· = '/')).reverse
    let last := (p.reverse.takeWhile (· ≠ '/')).reverse
    if last.isEmpty then "/".toList else last

/-! ## Configuration (the parsed flags) and start-up -/

/-- The flags of `main` after `flag.Parse`, and the positional URL.  The field
`requestBody` is the variable of line 50: the `-d` flag once `resolveBody` has
replaced an `@file` by the file's content. -/
structure Config where
  concurrency : Int := 1
  numCPUs : Int := 1
  timeLimit : Int := 0
  requests : Int := 0
  waitTime : Int := 0
  method : Str := "GET".toList
  headers : Str := []
  requestBody : Str := []
  useMultipart : Bool := false
  multipartFile : Str := []
  url : Str := []

/-- Wrap an integer to a signed 64-bit Go `int`. -/
def wrap64 (x : Int) : Int :=
  (x + 2 ^ 63) % 2 ^ 64 - 2 ^ 63

/-- The line `numWorkers := *concurrency * *numCPUs`. -/
def numWorkers (cfg : Config) : Int :=
  wrap64 (cfg.concurrency * cfg.numCPUs)

/-- How many times the spawn loop `for i := 0; i < numWorkers; i++` runs. -/
def poolSize (cfg : Config) : Nat :=
  (numWorkers cfg).toNat

/-- Lines 50-60: a body `@file` is replaced by the file's content; `readFile` is
the answer of `os.ReadFile`, and `none` is the `log.Fatalf` exit. -/
def resolveBody (body : Str) (readFile : Str → Option Str) : Option Str :=
  match body with
  | '@' :: fileName => readFile fileName
  | _ => some body

/-! ## One worker iteration: building the request (lines 98-133) -/

/-- What the outside world answers while one request is built. -/
structure Env where
  /-- `os.Open(*multipartFile)` succeeds. -/
  openOk : Bool := true
  /-- `writer.CreateFormFile` succeeds. -/
  createPartOk : Bool := true
  /-- The bytes `io.Copy` moved from the file into the part. -/
  copied : Str := []
  /-- The random boundary of `multipart.NewWriter`. -/
  boundary : Str := []
  /-- `url.Parse` accepts the URL inside `http.NewRequest`. -/
  urlParses : Bool := true
  deriving DecidableEq, Repr

/-- The loop over the header spec (lines 127-132). -/
def applyHeaders (spec : Str) (h : Header) : Header :=
  (split spec ';').foldl
    (fun h entry =>
      let parts := splitN entry ':' 2
      match parts with
      | [name, value] => h.set (trimSpace name) (trimSpace value)
      | _ => h)
    h

/-- Where the building part of an iteration ends. -/
inductive Build where
  /-- The worker returned (lines 108 and 115). -/
  | abandoned
  /-- A method was called on the nil request (line 121): the process panics. -/
  | nilDeref
  /-- Control reaches `client.Do(req)` (line 135); `none` is the nil request. -/
  | reachesDo (req : Option Request)
  deriving DecidableEq, Repr

/-- Lines 98-133.  In the multipart branch `err` is a new variable of the inner
block, so the outer `err` tested on line 126 is still nil there. -/
def buildRequest (cfg : Config) (env : Env) : Build :=
  if cfg.useMultipart && cfg.multipartFile ≠ [] then
    if !env.openOk then .abandoned
    else if !env.createPartOk then .abandoned
    else
      let buf := Body.form env.boundary "file".toList (base cfg.multipartFile) env.copied
      match newRequest cfg.method cfg.url buf env.urlParses with
      | none => .nilDeref
      | some req =>
        let req := { req with
          header := req.header.set "Content-Type".toList (formDataContentType env.boundary) }
        if cfg.headers ≠ [] then
          .reachesDo (some { req with header := applyHeaders cfg.headers req.header })
        else .reachesDo (some req)
  else
    match newRequest cfg.method cfg.url (Body.reader cfg.requestBody) env.urlParses with
    | none => .reachesDo none
    | some req =>
      if cfg.headers ≠ [] then
        .reachesDo (some { req with header := applyHeaders cfg.headers req.header })
      else .reachesDo (some req)

/-! ## The shared state and the goroutines -/

/-- Where a worker goroutine stands. -/
inductive PC where
  /-- At the `select` on `stop` (line 94). -/
  | loop
  /-- Inside `client.Do` (line 135). -/
  | doing
  /-- After `atomic.AddInt64(&requestCount, 1)`, before `atomic.AddInt64(&total, 1)`. -/
  | counted
  /-- After the outcome is recorded, before `atomic.LoadInt64(&total)` (lines 145-148). -/
  | recorded
  /-- The quota test was true, before `once.Do` (line 149). -/
  | stopping
  /-- The worker returned; `wg.Done` ran. -/
  | exited
  deriving DecidableEq, Repr

/-- Why the process died. -/
inductive Panic where
  /-- The nil `*http.Request` was used. -/
  | nilRequest
  /-- A closed channel was closed again. -/
  | closeOfClosed
  deriving DecidableEq, Repr

/-- The variables shared by the goroutines. -/
structure State where
  requestCount : Nat := 0
  total : Nat := 0
  errorCount : Nat := 0
  /-- The `sync.Once` has run its function. -/
  onceDone : Bool := false
  /-- The channel `stop` is closed. -/
  stopped : Bool := false
  /-- How many times `close(stop)` executed. -/
  closes : Nat := 0
  panicked : Option Panic := none
  workers : List PC := []
  /-- The requests handed to `client.Do`, latest first. -/
  sent : List Request := []
  deriving DecidableEq, Repr

/-- The statement `close(stop)`: closing a closed channel panics. -/
def closeStop (s : State) : State :=
  if s.stopped then { s with panicked := some .closeOfClosed }
  else { s with stopped := true, closes := s.closes + 1 }

/-- The statement `once.Do(func() { close(stop) })`. -/
def requestStop (s : State) : State :=
  if s.onceDone then s else closeStop { s with onceDone := true }

/-- One atomic step of one goroutine. -/
inductive Event where
  /-- Worker `i` runs the `select`, builds the request and enters `client.Do`. -/
  | begin (i : Nat) (env : Env)
  /-- `client.Do` of worker `i` returns a response; `requestCount` is incremented. -/
  | respond (i : Nat) (status : Nat)
  /-- Worker `i` increments `total` (line 140). -/
  | addTotal (i : Nat)
  /-- `client.Do` of worker `i` returns an error; `errorCount` is incremented. -/
  | fail (i : Nat)
  /-- Worker `i` sleeps `waitTime` and tests the quota (lines 145-148). -/
  | checkQuota (i : Nat)
  /-- Worker `i` runs `once.Do` and returns (lines 149-150). -/
  | fire (i : Nat)
  /-- The timer goroutine wakes up and runs `once.Do` (lines 77-82). -/
  | timer
  /-- The signal goroutine receives a signal and runs `once.Do` (lines 86-89). -/
  | interrupt
  deriving DecidableEq, Repr

/-- The state when the workers have been spawned (line 160). -/
def init (cfg : Config) : State :=
  { workers := List.replicate (poolSize cfg) PC.loop }

/-- Move worker `i` to `pc`. -/
def State.goto (s : State) (i : Nat) (pc : PC) : State :=
  { s with workers := s.workers.set i pc }

/-- One step of the program.  An event that does not match where its goroutine
stands leaves the state as it is, and nothing runs after a panic. -/
def step (cfg : Config) (s : State) : Event → State
  | .begin i env =>
    if s.panicked.isSome then s else
    if s.workers[i]? = some PC.loop then
      if s.stopped then s.goto i .exited
      else match buildRequest cfg env with
        | .abandoned => s.goto i .exited
        | .nilDeref => { s with panicked := some .nilRequest }
        | .reachesDo none => { s with panicked := some .nilRequest }
        | .reachesDo (some req) => { s.goto i .doing with sent := req :: s.sent }
    else s
  | .respond i _ =>
    if s.panicked.isSome then s else
    if s.workers[i]? = some PC.doing then
      { s.goto i .counted with requestCount := s.requestCount + 1 }
    else s
  | .addTotal i =>
    if s.panicked.isSome then s else
    if s.workers[i]? = some PC.counted then
      { s.goto i .recorded with total := s.total + 1 }
    else s
  | .fail i =>
    if s.panicked.isSome then s else
    if s.workers[i]? = some PC.doing then
      { s.goto i .recorded with errorCount := s.errorCount + 1 }
    else s
  | .checkQuota i =>
    if s.panicked.isSome then s else
    if s.workers[i]? = some PC.recorded then
      if cfg.requests > 0 ∧ (s.total : Int) ≥ cfg.requests then s.goto i .stopping
      else s.goto i .loop
    else s
  | .fire i =>
    if s.panicked.isSome then s else
    if s.workers[i]? = some PC.stopping then (requestStop s).goto i .exited
    else s
  | .timer =>
    if s.panicked.isSome then s else
    if cfg.timeLimit > 0 then requestStop s else s
  | .interrupt =>
    if s.panicked.isSome then s else requestStop s

/-- The state after the events of `tr`, from the start. -/
def run (cfg : Config) (tr : List Event) : State :=
  tr.foldl (step cfg) (init cfg)

/-- Every worker returned and nothing panicked: `wg.Wait` returns (line 162). -/
def State.complete (s : State) : Bool :=
  s.panicked.isNone && s.workers.all (· = PC.exited)

/-- The three numbers of the final line (line 163): Total, Success, Errors. -/
def State.report (s : State) : Nat × Nat × Nat :=
  (s.total + s.errorCount, s.total, s.errorCount)

/-! ## The header spec as the specification words it -/

/-- The entries of `s` separated by `sep`, read character by character. -/
def pieces (sep : Char) : Str → List Str
  | [] => [[]]
  | c :: cs =>
    if c = sep then [] :: pieces sep cs
    else match pieces sep cs with
      | [] => [[c]]
      | e :: es => (c :: e) :: es

/-- Cut `s` at its first `sep`; `none` when there is no `sep`. -/
def cutFirst (sep : Char) : Str → Option (Str × Str)
  | [] => none
  | c :: cs =>
    if c = sep then some ([], cs)
    else (cutFirst sep cs).map (fun p => (c :: p.1, p.2))

/-- The `Name: Value` pairs of a header spec: split on `;`, cut each entry at
its first `:`, trim both sides, skip the entries without a colon. -/
def specPairs (spec : Str) : List (Str × Str) :=
  (pieces ';' spec).filterMap
    (fun e => (cutFirst ':' e).map (fun p => (trimSpace p.1, trimSpace p.2)))

/-- Set the pairs of the header spec in order. -/
def specHeaders (spec : Str) (h : Header) : Header :=
  (specPairs spec).foldl (fun h p => h.set p.1 p.2) h

/-- The header a fresh request has before the header spec is applied: empty,
or the multipart content type in the multipart branch. -/
def freshHeader (cfg : Config) (env : Env) : Header :=
  if cfg.useMultipart && cfg.multipartFile ≠ [] then
    Header.set [] "Content-Type".toList (formDataContentType env.boundary)
  else []

/-- The canonical names the header spec sets. -/
def specNames (spec : Str) : List Str :=
  (specPairs spec).map (fun p => canonicalMIMEHeaderKey p.1)

/-- The three counters: issued, succeeded, failed. -/
def State.counters (s : State) : Nat × Nat × Nat :=
  (s.requestCount, s.total, s.errorCount)

/-! ## The steps as transition rules -/

/-- The event finds its goroutine where it has to be, and the process is alive. -/
def enabled (cfg : Config) (s : State) : Event → Bool
  | .begin i _ => s.panicked.isNone && s.workers[i]? = some PC.loop
  | .respond i _ => s.panicked.isNone && s.workers[i]? = some PC.doing
  | .addTotal i => s.panicked.isNone && s.workers[i]? = some PC.counted
  | .fail i => s.panicked.isNone && s.workers[i]? = some PC.doing
  | .checkQuota i => s.panicked.isNone && s.workers[i]? = some PC.recorded
  | .fire i => s.panicked.isNone && s.workers[i]? = some PC.stopping
  | .timer => s.panicked.isNone && cfg.timeLimit > 0
  | .interrupt => s.panicked.isNone

/-- The transitions of `step`, one rule per branch of the code. -/
inductive Step (cfg : Config) (s : State) : Event → State → Prop where
  | seeStop (i : Nat) (env : Env) :
    s.workers[i]? = some PC.loop → s.stopped = true →
    Step cfg s (.begin i env) (s.goto i .exited)
  | abandon (i : Nat) (env : Env) :
    s.workers[i]? = some PC.loop → s.stopped = false → buildRequest cfg env = .abandoned →
    Step cfg s (.begin i env) (s.goto i .exited)
  | nilHeader (i : Nat) (env : Env) :
    s.workers[i]? = some PC.loop → s.stopped = false → buildRequest cfg env = .nilDeref →
    Step cfg s (.begin i env) { s with panicked := some .nilRequest }
  | nilDo (i : Nat) (env : Env) :
    s.workers[i]? = some PC.loop → s.stopped = false → buildRequest cfg env = .reachesDo none →
    Step cfg s (.begin i env) { s with panicked := some .nilRequest }
  | send (i : Nat) (env : Env) (req : Request) :
    s.workers[i]? = some PC.loop → s.stopped = false →
    buildRequest cfg env = .reachesDo (some req) →
    Step cfg s (.begin i env) { s.goto i .doing with sent := req :: s.sent }
  | respond (i status : Nat) :
    s.workers[i]? = some PC.doing →
    Step cfg s (.respond i status) { s.goto i .counted with requestCount := s.requestCount + 1 }
  | addTotal (i : Nat) :
    s.workers[i]? = some PC.counted →
    Step cfg s (.addTotal i) { s.goto i .recorded with total := s.total + 1 }
  | fail (i : Nat) :
    s.workers[i]? = some PC.doing →
    Step cfg s (.fail i) { s.goto i .recorded with errorCount := s.errorCount + 1 }
  | quotaHit (i : Nat) :
    s.workers[i]? = some PC.recorded → cfg.requests > 0 → (s.total : Int) ≥ cfg.requests →
    Step cfg s (.checkQuota i) (s.goto i .stopping)
  | quotaMiss (i : Nat) :
    s.workers[i]? = some PC.recorded → ¬ (cfg.requests > 0 ∧ (s.total : Int) ≥ cfg.requests) →
    Step cfg s (.checkQuota i) (s.goto i .loop)
  | fire (i : Nat) :
    s.workers[i]? = some PC.stopping →
    Step cfg s (.fire i) ((requestStop s).goto i .exited)
  | timer :
    cfg.timeLimit > 0 → Step cfg s .timer (requestStop s)
  | interrupt :
    Step cfg s .interrupt (requestStop s)

/-! ## Invariants of the runs -/

/-- The guard and the channel agree, and `close` ran once exactly when the
channel is closed. -/
def StopInv (s : State) : Prop :=
  s.onceDone = s.stopped ∧ s.closes = (if s.stopped then 1 else 0) ∧
  s.panicked ≠ some Panic.closeOfClosed

/-- One for a worker that can still add to `total` before it next tests the quota. -/
def PC.pending : PC → Nat
  | .loop => 1
  | .doing => 1
  | .counted => 1
  | _ => 0

/-- How many workers can still add to `total` before they next test the quota. -/
def State.pendingCount (s : State) : Nat :=
  (s.workers.map PC.pending).sum

/-- The pool keeps its size, and once `total` has reached the quota, `total`
plus the workers that can still add to it stays within quota plus pool size
minus one. -/
def QuotaInv (cfg : Config) (s : State) : Prop :=
  s.workers.length = poolSize cfg ∧
  ((s.total : Int) < cfg.requests ∨
    (s.total : Int) + s.pendingCount + 1 ≤ cfg.requests + poolSize cfg)

/-- The build of lines 98-133 ends with a request handed to `client.Do`. -/
def buildsRequest (cfg : Config) (env : Env) : Bool :=
  match buildRequest cfg env with
  | .reachesDo (some _) => true
  | _ => false

/-- The events of a run in which every attempt receives a response and neither
the timer nor a signal fires. -/
def Event.allRespond (cfg : Config) : Event → Bool
  | .begin _ env => buildsRequest cfg env
  | .respond _ _ => true
  | .addTotal _ => true
  | .checkQuota _ => true
  | .fire _ => true
  | _ => false

/-- The events of a run in which every attempt fails with a transport error and
neither the timer nor a signal fires. -/
def Event.allFail (cfg : Config) : Event → Bool
  | .begin _ env => buildsRequest cfg env
  | .fail _ => true
  | .addTotal _ => true
  | .checkQuota _ => true
  | .fire _ => true
  | _ => false

/-- How far a worker is from its next addition to `total` or from its exit. -/
def PC.weight : PC → Nat
  | .exited => 0
  | .stopping => 1
  | .counted => 1
  | .doing => 2
  | .loop => 3
  | .recorded => 4

/-- The sum of the weights of the workers. -/
def State.weight (s : State) : Nat :=
  (s.workers.map PC.weight).sum

/-- How many events of the list move the state, from `s` on. -/
def moves (cfg : Config) : State → List Event → Nat
  | _, [] => 0
  | s, e :: es => (if enabled cfg s e then 1 else 0) + moves cfg (step cfg s e) es

/-- While every attempt gets a response: no error is counted, nothing panics,
and the stop signal, a worker about to request it and a worker that returned
all imply that `total` has reached the quota. -/
def RespInv (cfg : Config) (s : State) : Prop :=
  s.errorCount = 0 ∧ s.panicked = none ∧
  (s.stopped = true → cfg.requests ≤ (s.total : Int)) ∧
  (∀ i : Nat, s.workers[i]? = some PC.stopping ∨ s.workers[i]? = some PC.exited →
    cfg.requests ≤ (s.total : Int))

/-- One for a worker inside `client.Do`. -/
def PC.inFlight : PC → Nat
  | .doing => 1
  | _ => 0

/-- How many workers are inside `client.Do`. -/
def State.inFlight (s : State) : Nat :=
  (s.workers.map PC.inFlight).sum

/-- While every attempt fails: nothing is counted as issued or succeeded, the
stop signal is unset, nothing panics, no worker has left its loop, and every
request handed to `client.Do` is counted as an error or still in flight. -/
def FailInv (s : State) : Prop :=
  s.total = 0 ∧ s.requestCount = 0 ∧ s.stopped = false ∧ s.panicked = none ∧
  (∀ (i : Nat) (pc : PC), s.workers[i]? = some pc → pc = PC.loop ∨ pc = PC.doing ∨ pc = PC.recorded) ∧
  s.errorCount + s.inFlight = s.sent.length

/-- A schedule for quota 10 and four workers: worker 0 makes ten attempts that
all get a response, requests the stop, and the other workers see it. -/
def oneWorkerSchedule : List Event :=
  (List.replicate 10
    [Event.begin 0 {}, Event.respond 0 200, Event.addTotal 0, Event.checkQuota 0]).flatten
  ++ [Event.fire 0, Event.begin 1 {}, Event.begin 2 {}, Event.begin 3 {}]

/-- A schedule for quota 10 and four workers in which all four are in flight
when `total` goes from 9 to 10. -/
def overshootSchedule : List Event :=
  (List.replicate 9
    [Event.begin 0 {}, Event.respond 0 200, Event.addTotal 0, Event.checkQuota 0]).flatten
  ++ [Event.begin 0 {}, Event.begin 1 {}, Event.begin 2 {}, Event.begin 3 {},
      Event.respond 0 200, Event.respond 1 200, Event.respond 2 200, Event.respond 3 200,
      Event.addTotal 0, Event.addTotal 1, Event.addTotal 2, Event.addTotal 3,
      Event.checkQuota 0, Event.checkQuota 1, Event.checkQuota 2, Event.checkQuota 3,
      Event.fire 0, Event.fire 1, Event.fire 2, Event.fire 3]

/-- Five failed attempts of worker 0, each followed by its quota test. -/
def fiveFailures : List Event :=
  (List.replicate 5 [Event.begin 0 {}, Event.fail 0, Event.checkQuota 0]).flatten

/-- One worker whose attempts end in error, response, error, response, with the
quota test after each, and the stop request after the second response. -/
def mixedOutcomes : List Event :=
  [Event.begin 0 {}, Event.fail 0, Event.checkQuota 0,
   Event.begin 0 {}, Event.respond 0 200, Event.addTotal 0, Event.checkQuota 0,
   Event.begin 0 {}, Event.fail 0, Event.checkQuota 0,
   Event.begin 0 {}, Event.respond 0 200, Event.addTotal 0, Event.checkQuota 0,
   Event.fire 0]

/-! ## Splitting and the header loop -/

theorem index_none_iff_count (sep : Char) (s : Str) : index sep s = none ↔ count sep s = 0 := by
  induction s with
  | nil => simp [index, count]
  | cons c cs ih =>
    by_cases h : c = sep
    · simp [index, count, h]
    · simp [index, count, h, ih]

theorem pieces_ne_nil (sep : Char) (s : Str) : pieces sep s ≠ [] := by
  induction s with
  | nil => simp [pieces]
  | cons c cs ih =>
    by_cases h : c = sep
    · simp [pieces, h]
    · simp only [pieces, h, if_false]
      cases hp : pieces sep cs <;> simp

theorem pieces_of_index_none (sep : Char) (s : Str) (h : index sep s = none) :
    pieces sep s = [s] := by
  induction s with
  | nil => simp [pieces]
  | cons c cs ih =>
    by_cases hc : c = sep
    · simp [index, hc] at h
    · simp [index, hc] at h
      simp [pieces, hc, ih h]

theorem pieces_of_index_some (sep : Char) (s : Str) (m : Nat) (h : index sep s = some m) :
    pieces sep s = s.take m :: pieces sep (s.drop (m + 1)) := by
  induction s generalizing m with
  | nil => simp [index] at h
  | cons c cs ih =>
    by_cases hc : c = sep
    · simp [index, hc] at h
      subst h
      simp [pieces, hc]
    · simp [index, hc] at h
      obtain ⟨a, ha, rfl⟩ := h
      simp [pieces, hc, ih a ha]

theorem count_of_index_some (sep : Char) (s : Str) (m : Nat) (h : index sep s = some m) :
    count sep s = count sep (s.drop (m + 1)) + 1 := by
  induction s generalizing m with
  | nil => simp [index] at h
  | cons c cs ih =>
    by_cases hc : c = sep
    · simp [index, hc] at h
      subst h
      simp [count, hc]; omega
    · simp [index, hc] at h
      obtain ⟨a, ha, rfl⟩ := h
      simp [count, hc, ih a ha]

theorem genSplit_eq_pieces (sep : Char) (k : Nat) (s : Str) (h : count sep s ≤ k) :
    genSplit sep k s = pieces sep s := by
  induction k generalizing s with
  | zero =>
    have h0 : index sep s = none := (index_none_iff_count sep s).2 (by omega)
    simp [genSplit, pieces_of_index_none sep s h0]
  | succ k ih =>
    cases hi : index sep s with
    | none => simp [genSplit, hi, pieces_of_index_none sep s hi]
    | some m =>
      have hc := count_of_index_some sep s m hi
      simp [genSplit, hi, pieces_of_index_some sep s m hi, ih (s.drop (m + 1)) (by omega)]

theorem split_eq_pieces (s : Str) (sep : Char) : split s sep = pieces sep s :=
  genSplit_eq_pieces sep _ s (Nat.le_refl _)

theorem cutFirst_of_index (sep : Char) (s : Str) :
    cutFirst sep s = (index sep s).map (fun m => (s.take m, s.drop (m + 1))) := by
  induction s with
  | nil => simp [cutFirst, index]
  | cons c cs ih =>
    by_cases hc : c = sep
    · simp [cutFirst, index, hc]
    · simp [cutFirst, index, hc, ih, Option.map_map, Function.comp_def]

/-- One turn of the header loop is the step over the optional pair. -/
theorem header_loop_body (h : Header) (entry : Str) :
    (match splitN entry ':' 2 with
      | [name, value] => h.set (trimSpace name) (trimSpace value)
      | _ => h)
    = match (cutFirst ':' entry).map (fun p => (trimSpace p.1, trimSpace p.2)) with
      | some p => h.set p.1 p.2
      | none => h := by
  rw [cutFirst_of_index]
  cases hi : index ':' entry with
  | none => simp [splitN, genSplit, hi]
  | some m => simp [splitN, genSplit, hi]

theorem foldl_filterMap_set (f : Str → Option (Str × Str)) (l : List Str) (h : Header) :
    (l.filterMap f).foldl (fun h p => Header.set h p.1 p.2) h
    = l.foldl (fun h e => match f e with | some p => Header.set h p.1 p.2 | none => h) h := by
  induction l generalizing h with
  | nil => rfl
  | cons e es ih =>
    cases hf : f e with
    | none => simp [List.filterMap_cons, hf, ih]
    | some p => simp [List.filterMap_cons, hf, ih]

theorem applyHeaders_eq_specHeaders (spec : Str) (h : Header) :
    applyHeaders spec h = specHeaders spec h := by
  unfold applyHeaders specHeaders specPairs
  rw [foldl_filterMap_set, split_eq_pieces]
  congr 1
  funext h e
  exact header_loop_body h e

/-! ## Header maps -/

theorem lookupKey_assign_same (k : Str) (vs : List Str) (h : Header) :
    lookupKey k (assign k vs h) = some vs := by
  induction h with
  | nil => simp [assign, lookupKey]
  | cons p rest ih =>
    obtain ⟨k1, v1⟩ := p
    by_cases hk : k1 = k
    · simp [assign, lookupKey, hk]
    · simp [assign, lookupKey, hk, ih]

theorem lookupKey_assign_other (k k2 : Str) (vs : List Str) (h : Header) (hne : k2 ≠ k) :
    lookupKey k (assign k2 vs h) = lookupKey k h := by
  induction h with
  | nil => simp [assign, lookupKey, hne]
  | cons p rest ih =>
    obtain ⟨k1, v1⟩ := p
    by_cases hk : k1 = k2
    · subst hk
      simp [assign, lookupKey, hne]
    · by_cases hk1 : k1 = k
      · subst hk1
        simp [assign, lookupKey, hk]
      · simp [assign, lookupKey, hk, hk1, ih]

theorem get_set_same (h : Header) (key value : Str) :
    (h.set key value).get key = value := by
  simp [Header.get, Header.set, lookupKey_assign_same]

theorem get_set_other (h : Header) (key key2 value : Str)
    (hne : canonicalMIMEHeaderKey key2 ≠ canonicalMIMEHeaderKey key) :
    (h.set key2 value).get key = h.get key := by
  simp [Header.get, Header.set, lookupKey_assign_other _ _ _ _ hne]

theorem canonical_content_type :
    canonicalMIMEHeaderKey "Content-Type".toList = "Content-Type".toList := by decide

theorem get_foldl_set (key : Str) (ps : List (Str × Str)) (h : Header)
    (hno : canonicalMIMEHeaderKey key ∉ ps.map (fun p => canonicalMIMEHeaderKey p.1)) :
    (ps.foldl (fun h p => Header.set h p.1 p.2) h).get key = h.get key := by
  induction ps generalizing h with
  | nil => rfl
  | cons p ps ih =>
    simp only [List.map_cons, List.mem_cons, not_or] at hno
    simp only [List.foldl_cons]
    rw [ih _ hno.2]
    exact get_set_other h key p.1 p.2 (fun e => hno.1 e.symm)

/-! ## Building the request -/

theorem newRequest_some (method url : Str) (body : Body) (p : Bool) (r : Request)
    (h : newRequest method url body p = some r) :
    r.header = [] ∧ r.body = body ∧ r.url = url := by
  simp only [newRequest] at h
  generalize (if method.isEmpty = true then "GET".toList else method) = m at h
  by_cases hv : validMethod m = true
  · by_cases hp : p = true
    · simp only [hv, hp, Bool.not_true, Bool.false_eq_true, if_false, Option.some.injEq] at h
      subst h
      exact ⟨rfl, rfl, rfl⟩
    · simp [hv, hp] at h
  · simp [hv] at h

theorem buildRequest_header (cfg : Config) (env : Env) (req : Request)
    (hb : buildRequest cfg env = .reachesDo (some req)) :
    req.header = if cfg.headers ≠ [] then applyHeaders cfg.headers (freshHeader cfg env)
                 else freshHeader cfg env := by
  unfold buildRequest at hb
  unfold freshHeader
  by_cases hmp : (cfg.useMultipart && decide (cfg.multipartFile ≠ [])) = true
  · rw [if_pos hmp] at hb
    rw [if_pos hmp]
    by_cases ho : env.openOk = true
    · by_cases hc : env.createPartOk = true
      · simp only [ho, hc, Bool.not_true, Bool.false_eq_true, if_false] at hb
        cases hr : newRequest cfg.method cfg.url
            (Body.form env.boundary "file".toList (base cfg.multipartFile) env.copied)
            env.urlParses with
        | none => rw [hr] at hb; simp at hb
        | some r =>
          rw [hr] at hb
          obtain ⟨h0, -, -⟩ := newRequest_some _ _ _ _ _ hr
          by_cases hh : cfg.headers ≠ []
          · simp only [if_pos hh, Build.reachesDo.injEq, Option.some.injEq] at hb
            rw [← hb, if_pos hh, h0]
          · simp only [if_neg hh, Build.reachesDo.injEq, Option.some.injEq] at hb
            rw [← hb, if_neg hh, h0]
      · simp [ho, hc] at hb
    · simp [ho] at hb
  · rw [if_neg hmp] at hb
    rw [if_neg hmp]
    cases hr : newRequest cfg.method cfg.url (Body.reader cfg.requestBody) env.urlParses with
    | none => rw [hr] at hb; simp at hb
    | some r =>
      rw [hr] at hb
      obtain ⟨h0, -, -⟩ := newRequest_some _ _ _ _ _ hr
      by_cases hh : cfg.headers ≠ []
      · simp only [if_pos hh, Build.reachesDo.injEq, Option.some.injEq] at hb
        rw [← hb, if_pos hh, h0]
      · simp only [if_neg hh, Build.reachesDo.injEq, Option.some.injEq] at hb
        rw [← hb, if_neg hh, h0]

theorem buildRequest_body (cfg : Config) (env : Env) (req : Request)
    (hb : buildRequest cfg env = .reachesDo (some req)) :
    req.body = if cfg.useMultipart && cfg.multipartFile ≠ [] then
        Body.form env.boundary "file".toList (base cfg.multipartFile) env.copied
      else Body.reader cfg.requestBody := by
  unfold buildRequest at hb
  by_cases hmp : (cfg.useMultipart && decide (cfg.multipartFile ≠ [])) = true
  · rw [if_pos hmp] at hb
    rw [if_pos hmp]
    by_cases ho : env.openOk = true
    · by_cases hc : env.createPartOk = true
      · simp only [ho, hc, Bool.not_true, Bool.false_eq_true, if_false] at hb
        cases hr : newRequest cfg.method cfg.url
            (Body.form env.boundary "file".toList (base cfg.multipartFile) env.copied)
            env.urlParses with
        | none => rw [hr] at hb; simp at hb
        | some r =>
          rw [hr] at hb
          obtain ⟨-, h0, -⟩ := newRequest_some _ _ _ _ _ hr
          by_cases hh : cfg.headers ≠ []
          · simp only [if_pos hh, Build.reachesDo.injEq, Option.some.injEq] at hb
            rw [← hb, h0]
          · simp only [if_neg hh, Build.reachesDo.injEq, Option.some.injEq] at hb
            rw [← hb, h0]
      · simp [ho, hc] at hb
    · simp [ho] at hb
  · rw [if_neg hmp] at hb
    rw [if_neg hmp]
    cases hr : newRequest cfg.method cfg.url (Body.reader cfg.requestBody) env.urlParses with
    | none => rw [hr] at hb; simp at hb
    | some r =>
      rw [hr] at hb
      obtain ⟨-, h0, -⟩ := newRequest_some _ _ _ _ _ hr
      by_cases hh : cfg.headers ≠ []
      · simp only [if_pos hh, Build.reachesDo.injEq, Option.some.injEq] at hb
        rw [← hb, h0]
      · simp only [if_neg hh, Build.reachesDo.injEq, Option.some.injEq] at hb
        rw [← hb, h0]

/-! ## The request handed to `client.Do` -/

/-- C4: for a non-empty header spec, the header of the request that reaches
`client.Do` is the fresh header with the pairs of the spec set in order: split on
`;`, each entry cut at its first `:`, both sides trimmed, entries without a colon
skipped (no error path exists: the loop is a total function). -/
theorem header_spec_applied (cfg : Config) (env : Env) (req : Request)
    (hne : cfg.headers ≠ [])
    (hb : buildRequest cfg env = .reachesDo (some req)) :
    req.header = specHeaders cfg.headers (freshHeader cfg env) := by
  rw [buildRequest_header cfg env req hb, if_pos hne, applyHeaders_eq_specHeaders]

/-- C4 at the two inputs of the specification: `"A: 1; B: 2"` gives exactly
`A=1` and `B=2`, and `"A1;B:2"` gives only `B=2`. -/
theorem header_spec_applied_witness :
    (∃ req, buildRequest { headers := "A: 1; B: 2".toList } {} = .reachesDo (some req) ∧
      req.header = [("A".toList, ["1".toList]), ("B".toList, ["2".toList])]) ∧
    (∃ req, buildRequest { headers := "A1;B:2".toList } {} = .reachesDo (some req) ∧
      req.header = [("B".toList, ["2".toList])]) :=
  ⟨⟨{ method := "GET".toList, url := [], body := .reader [],
      header := [("A".toList, ["1".toList]), ("B".toList, ["2".toList])] },
    by decide,
    (header_spec_applied { headers := "A: 1; B: 2".toList } {} _ (by decide)
      (by decide)).trans (by decide)⟩,
   ⟨{ method := "GET".toList, url := [], body := .reader [],
      header := [("B".toList, ["2".toList])] },
    by decide,
    (header_spec_applied { headers := "A1;B:2".toList } {} _ (by decide)
      (by decide)).trans (by decide)⟩⟩

/-- C9 as stated fails: in multipart mode with a file that opens, the header spec
`Content-Type: text/plain` is applied after the multipart content type and
overwrites it. -/
theorem content_type_overwritten_by_header_spec :
    buildRequest
      { useMultipart := true, multipartFile := "f".toList,
        headers := "Content-Type: text/plain".toList }
      { boundary := "b".toList }
    = .reachesDo (some
      { method := "GET".toList, url := [],
        header := [("Content-Type".toList, ["text/plain".toList])],
        body := .form "b".toList "file".toList "f".toList [] }) ∧
    ¬ ("multipart/form-data; boundary=".toList <+:
        Header.get [("Content-Type".toList, ["text/plain".toList])] "Content-Type".toList) := by
  decide

/-- C9, amended: in multipart mode the request that reaches `client.Do` has a
`Content-Type` starting with `multipart/form-data; boundary=` whenever no entry
of the header spec names `Content-Type`. -/
theorem multipart_content_type (cfg : Config) (env : Env) (req : Request)
    (hm : cfg.useMultipart = true) (hf : cfg.multipartFile ≠ [])
    (hno : "Content-Type".toList ∉ specNames cfg.headers)
    (hb : buildRequest cfg env = .reachesDo (some req)) :
    "multipart/form-data; boundary=".toList <+: req.header.get "Content-Type".toList := by
  have hfresh : (freshHeader cfg env).get "Content-Type".toList
      = formDataContentType env.boundary := by
    unfold freshHeader
    rw [if_pos (by simp [hm, hf])]
    exact get_set_same _ _ _
  have hget : req.header.get "Content-Type".toList = formDataContentType env.boundary := by
    rw [buildRequest_header cfg env req hb]
    by_cases hh : cfg.headers ≠ []
    · rw [if_pos hh, applyHeaders_eq_specHeaders]
      unfold specHeaders
      rw [get_foldl_set _ _ _ (by rw [canonical_content_type]; exact hno), hfresh]
    · rw [if_neg hh, hfresh]
  rw [hget]
  exact ⟨_, rfl⟩

/-- C9, amended, at a concrete input: in multipart mode a header spec that sets
`X-A` leaves the multipart content type of the request in place. -/
theorem multipart_content_type_witness :
    ∃ req,
      buildRequest
        { useMultipart := true, multipartFile := "f".toList, headers := "x-a: 1".toList }
        { boundary := "b".toList } = .reachesDo (some req) ∧
      req.header = [("Content-Type".toList, ["multipart/form-data; boundary=b".toList]),
                    ("X-A".toList, ["1".toList])] ∧
      "multipart/form-data; boundary=".toList <+: req.header.get "Content-Type".toList :=
  ⟨{ method := "GET".toList, url := [],
     header := [("Content-Type".toList, ["multipart/form-data; boundary=b".toList]),
                ("X-A".toList, ["1".toList])],
     body := .form "b".toList "file".toList "f".toList [] },
   by decide, rfl,
   multipart_content_type
     { useMultipart := true, multipartFile := "f".toList, headers := "x-a: 1".toList }
     { boundary := "b".toList } _ rfl (by decide) (by decide) (by decide)⟩

/-- C10 as stated fails: with the multipart flag set and no file path, the body
of the request is the literal payload. -/
theorem multipart_flag_without_file_sends_payload :
    buildRequest { useMultipart := true, multipartFile := [], requestBody := "x".toList } {}
    = .reachesDo (some
      { method := "GET".toList, url := [], header := [], body := .reader "x".toList }) := by
  decide

/-- C10, amended: the body of the request that reaches `client.Do` is decided by
the multipart flag together with the file path: the multipart form built from
the file when the flag is set and the path is not empty, the literal payload
otherwise. -/
theorem body_mode (cfg : Config) (env : Env) (req : Request)
    (hb : buildRequest cfg env = .reachesDo (some req)) :
    req.body =
      if cfg.useMultipart = true ∧ cfg.multipartFile ≠ [] then
        Body.form env.boundary "file".toList (base cfg.multipartFile) env.copied
      else Body.reader cfg.requestBody := by
  rw [buildRequest_body cfg env req hb]
  by_cases hm : cfg.useMultipart = true <;> by_cases hf : cfg.multipartFile = [] <;>
    simp [hm, hf]

/-- C10, amended, at concrete inputs: the form built from `/tmp/a.txt` in
multipart mode with that file, and the empty payload without the flag. -/
theorem body_mode_witness :
    (∃ req,
      buildRequest { useMultipart := true, multipartFile := "/tmp/a.txt".toList }
        { boundary := "b".toList, copied := "data".toList } = .reachesDo (some req) ∧
      req.body = Body.form "b".toList "file".toList "a.txt".toList "data".toList) ∧
    (∃ req, buildRequest {} {} = .reachesDo (some req) ∧ req.body = Body.reader []) :=
  ⟨⟨{ method := "GET".toList, url := [],
      header := [("Content-Type".toList, ["multipart/form-data; boundary=b".toList])],
      body := .form "b".toList "file".toList "a.txt".toList "data".toList },
    by decide,
    (body_mode { useMultipart := true, multipartFile := "/tmp/a.txt".toList }
      { boundary := "b".toList, copied := "data".toList } _ (by decide)).trans (by decide)⟩,
   ⟨{ method := "GET".toList, url := [], header := [], body := .reader [] },
    by decide,
    (body_mode {} {} _ (by decide)).trans (by decide)⟩⟩

/-! ## Steps of the workers -/

theorem goto_workers_self (s : State) (i : Nat) (pc0 pc : PC)
    (h : s.workers[i]? = some pc0) : (s.goto i pc).workers[i]? = some pc := by
  have hi : i < s.workers.length := by
    rcases Nat.lt_or_ge i s.workers.length with hlt | hge
    · exact hlt
    · rw [List.getElem?_eq_none hge] at h; cases h
  simp [State.goto, List.getElem?_set, hi]

theorem goto_workers_ne (s : State) (i j : Nat) (pc : PC) (h : j ≠ i) :
    (s.goto i pc).workers[j]? = s.workers[j]? := by
  simp [State.goto, List.getElem?_set, Ne.symm h]

theorem requestStop_workers (s : State) : (requestStop s).workers = s.workers := by
  unfold requestStop closeStop
  split
  · rfl
  · split <;> rfl

theorem requestStop_counters (s : State) :
    (requestStop s).requestCount = s.requestCount ∧ (requestStop s).total = s.total ∧
    (requestStop s).errorCount = s.errorCount ∧ (requestStop s).sent = s.sent := by
  unfold requestStop closeStop
  split
  · exact ⟨rfl, rfl, rfl, rfl⟩
  · split <;> exact ⟨rfl, rfl, rfl, rfl⟩

/-- A worker that returned stays returned. -/
theorem exited_step (cfg : Config) (s : State) (e : Event) (i : Nat)
    (h : s.workers[i]? = some PC.exited) : (step cfg s e).workers[i]? = some PC.exited := by
  have key : ∀ (j : Nat) (pc0 pc : PC) (t : State), t.workers = s.workers →
      s.workers[j]? = some pc0 → pc0 ≠ PC.exited → (t.goto j pc).workers[i]? = some PC.exited := by
    intro j pc0 pc t ht hj hne
    have hji : i ≠ j := by
      intro e; subst e; rw [h] at hj; injection hj with hj; exact hne hj.symm
    rw [goto_workers_ne t j i pc hji, ht, h]
  cases e with
  | begin j env =>
    simp only [step]
    split
    · exact h
    · split
      · rename_i hj
        split
        · exact key j _ _ s rfl hj (by decide)
        · split
          · exact key j _ _ s rfl hj (by decide)
          · exact h
          · exact h
          · exact key j _ _ s rfl hj (by decide)
      · exact h
  | respond j st =>
    simp only [step]
    split
    · exact h
    · split
      · rename_i hj
        exact key j _ _ s rfl hj (by decide)
      · exact h
  | addTotal j =>
    simp only [step]
    split
    · exact h
    · split
      · rename_i hj
        exact key j _ _ s rfl hj (by decide)
      · exact h
  | fail j =>
    simp only [step]
    split
    · exact h
    · split
      · rename_i hj
        exact key j _ _ s rfl hj (by decide)
      · exact h
  | checkQuota j =>
    simp only [step]
    split
    · exact h
    · split
      · rename_i hj
        split
        · exact key j _ _ s rfl hj (by decide)
        · exact key j _ _ s rfl hj (by decide)
      · exact h
  | fire j =>
    simp only [step]
    split
    · exact h
    · split
      · rename_i hj
        exact key j _ _ (requestStop s) (requestStop_workers s) hj (by decide)
      · exact h
  | timer =>
    simp only [step]
    split
    · exact h
    · split
      · rw [requestStop_workers]; exact h
      · exact h
  | interrupt =>
    simp only [step]
    split
    · exact h
    · rw [requestStop_workers]; exact h

theorem exited_foldl (cfg : Config) (tr : List Event) (s : State) (i : Nat)
    (h : s.workers[i]? = some PC.exited) :
    (tr.foldl (step cfg) s).workers[i]? = some PC.exited := by
  induction tr generalizing s with
  | nil => exact h
  | cons e es ih => exact ih _ (exited_step cfg s e i h)

theorem buildRequest_abandoned (cfg : Config) (env : Env)
    (hm : cfg.useMultipart = true) (hf : cfg.multipartFile ≠ [])
    (hfail : env.openOk = false ∨ env.createPartOk = false) :
    buildRequest cfg env = .abandoned := by
  unfold buildRequest
  rw [if_pos (by simp [hm, hf])]
  rcases hfail with h | h
  · simp [h]
  · by_cases ho : env.openOk = true <;> simp [h, ho]

/-- C8: in multipart mode, when the file does not open or the form part is not
created, the step of worker `i` moves that worker to `exited` and changes
nothing else: no request is handed to `client.Do`, the three counters and the
stop signal keep their values, every other worker stays where it is, and worker
`i` stays exited whatever happens afterwards. -/
theorem multipart_build_failure_exits_worker (cfg : Config) (s : State) (i : Nat) (env : Env)
    (hm : cfg.useMultipart = true) (hf : cfg.multipartFile ≠ [])
    (hfail : env.openOk = false ∨ env.createPartOk = false)
    (hp : s.panicked = none) (hpc : s.workers[i]? = some PC.loop) :
    step cfg s (.begin i env) = { s with workers := s.workers.set i PC.exited } ∧
    (step cfg s (.begin i env)).workers[i]? = some PC.exited ∧
    (∀ tr : List Event,
      (tr.foldl (step cfg) (step cfg s (.begin i env))).workers[i]? = some PC.exited) ∧
    (step cfg s (.begin i env)).sent = s.sent ∧
    (step cfg s (.begin i env)).requestCount = s.requestCount ∧
    (step cfg s (.begin i env)).total = s.total ∧
    (step cfg s (.begin i env)).errorCount = s.errorCount ∧
    (step cfg s (.begin i env)).stopped = s.stopped ∧
    (step cfg s (.begin i env)).onceDone = s.onceDone ∧
    (step cfg s (.begin i env)).closes = s.closes ∧
    (step cfg s (.begin i env)).panicked = none ∧
    (∀ j, j ≠ i → (step cfg s (.begin i env)).workers[j]? = s.workers[j]?) := by
  have hstep : step cfg s (.begin i env) = s.goto i PC.exited := by
    simp only [step, hp, hpc, buildRequest_abandoned cfg env hm hf hfail]
    simp
  have hex : (s.goto i PC.exited).workers[i]? = some PC.exited :=
    goto_workers_self s i _ _ hpc
  rw [hstep]
  refine ⟨rfl, hex, fun tr => exited_foldl cfg tr _ i hex, rfl, rfl, rfl, rfl, rfl, rfl, rfl,
    hp, fun j hj => goto_workers_ne s i j _ hj⟩

/-- C8 at a concrete state: two workers, the file of worker 0 does not open. -/
theorem multipart_build_failure_exits_worker_witness :
    step { useMultipart := true, multipartFile := "f".toList }
      { workers := [PC.loop, PC.doing] } (.begin 0 { openOk := false })
    = { workers := [PC.exited, PC.doing] } :=
  (multipart_build_failure_exits_worker
    { useMultipart := true, multipartFile := "f".toList }
    { workers := [PC.loop, PC.doing] } 0 { openOk := false }
    rfl (by decide) (Or.inl rfl) rfl rfl).1

/-- The steps that record no outcome leave the three counters alone. -/
theorem counters_frame (cfg : Config) (s : State) (e : Event)
    (he : match e with
      | .respond _ _ => False
      | .addTotal _ => False
      | .fail _ => False
      | _ => True) :
    (step cfg s e).counters = s.counters := by
  have hrs : (requestStop s).counters = s.counters := by
    obtain ⟨h1, h2, h3, -⟩ := requestStop_counters s
    simp [State.counters, h1, h2, h3]
  cases e with
  | begin j env =>
    simp only [step]
    split
    · rfl
    · split
      · split
        · rfl
        · split <;> rfl
      · rfl
  | respond j st => exact he.elim
  | addTotal j => exact he.elim
  | fail j => exact he.elim
  | checkQuota j =>
    simp only [step]
    split
    · rfl
    · split
      · split <;> rfl
      · rfl
  | fire j =>
    simp only [step]
    split
    · rfl
    · split
      · exact hrs
      · rfl
  | timer =>
    simp only [step]
    split
    · rfl
    · split
      · exact hrs
      · rfl
  | interrupt =>
    simp only [step]
    split
    · rfl
    · exact hrs

/-- C3: when `client.Do` of worker `i` returns a response, whatever the status
code, the worker adds one to `requestCount` and then one to `total` and leaves
`errorCount` alone; when it returns an error, the worker adds one to
`errorCount` and leaves `requestCount` and `total` alone.  The other steps of
an attempt (the `select` and the build, the quota test, `once.Do`) touch no
counter. -/
theorem attempt_accounting (cfg : Config) (s : State) (i : Nat) (status : Nat)
    (hp : s.panicked = none) (hpc : s.workers[i]? = some PC.doing) :
    ((step cfg s (.respond i status)).counters
        = (s.requestCount + 1, s.total, s.errorCount) ∧
     (step cfg s (.respond i status)).workers[i]? = some PC.counted ∧
     (step cfg (step cfg s (.respond i status)) (.addTotal i)).counters
        = (s.requestCount + 1, s.total + 1, s.errorCount) ∧
     (step cfg (step cfg s (.respond i status)) (.addTotal i)).workers[i]? = some PC.recorded) ∧
    (∀ t : State, t.panicked = none → t.workers[i]? = some PC.counted →
      (step cfg t (.addTotal i)).counters = (t.requestCount, t.total + 1, t.errorCount) ∧
      (step cfg t (.addTotal i)).workers[i]? = some PC.recorded) ∧
    ((step cfg s (.fail i)).counters = (s.requestCount, s.total, s.errorCount + 1) ∧
     (step cfg s (.fail i)).workers[i]? = some PC.recorded) ∧
    (∀ (t : State) (env : Env), (step cfg t (.begin i env)).counters = t.counters) ∧
    (∀ t : State, (step cfg t (.checkQuota i)).counters = t.counters) ∧
    (∀ t : State, (step cfg t (.fire i)).counters = t.counters) := by
  have hadd : ∀ t : State, t.panicked = none → t.workers[i]? = some PC.counted →
      (step cfg t (.addTotal i)).counters = (t.requestCount, t.total + 1, t.errorCount) ∧
      (step cfg t (.addTotal i)).workers[i]? = some PC.recorded := by
    intro t htp htc
    have e : step cfg t (.addTotal i) = { t.goto i .recorded with total := t.total + 1 } := by
      simp [step, htp, htc]
    rw [e]
    exact ⟨rfl, goto_workers_self t i _ _ htc⟩
  have hresp : step cfg s (.respond i status)
      = { s.goto i .counted with requestCount := s.requestCount + 1 } := by
    simp [step, hp, hpc]
  have hfail : step cfg s (.fail i)
      = { s.goto i .recorded with errorCount := s.errorCount + 1 } := by
    simp [step, hp, hpc]
  have hc : (step cfg s (.respond i status)).workers[i]? = some PC.counted := by
    rw [hresp]; exact goto_workers_self s i _ _ hpc
  have hp1 : (step cfg s (.respond i status)).panicked = none := by
    rw [hresp]; exact hp
  refine ⟨⟨?_, hc, ?_, (hadd _ hp1 hc).2⟩, hadd, ⟨?_, ?_⟩,
    fun t env => counters_frame cfg t _ trivial, fun t => counters_frame cfg t _ trivial,
    fun t => counters_frame cfg t _ trivial⟩
  · rw [hresp]; rfl
  · rw [(hadd _ hp1 hc).1, hresp]; rfl
  · rw [hfail]; rfl
  · rw [hfail]; exact goto_workers_self s i _ _ hpc

/-- C3 at a concrete state: a 500 response counts as issued and succeeded. -/
theorem attempt_accounting_witness :
    (step {} (step {} { requestCount := 3, total := 3, errorCount := 1, workers := [PC.doing] }
        (.respond 0 500)) (.addTotal 0)).counters = (4, 4, 1) ∧
    (step {} { requestCount := 3, total := 3, errorCount := 1, workers := [PC.doing] }
        (.fail 0)).counters = (3, 3, 2) :=
  have h := attempt_accounting {}
    { requestCount := 3, total := 3, errorCount := 1, workers := [PC.doing] } 0 500 rfl rfl
  ⟨h.1.2.2.1, h.2.2.1.1⟩

/-- C7 fails on the code: with a method that `http.NewRequest` rejects, the nil
request is used.  In the multipart branch `req.Header.Set` is called on it
(line 121); in the plain branch it is handed to `client.Do` (line 135).  Both
are nil dereferences and the process panics. -/
theorem nil_request_is_used :
    buildRequest { method := "BAD METHOD".toList, useMultipart := true,
                   multipartFile := "f".toList } {} = .nilDeref ∧
    (run { method := "BAD METHOD".toList, useMultipart := true,
           multipartFile := "f".toList } [.begin 0 {}]).panicked = some .nilRequest ∧
    buildRequest { method := "BAD METHOD".toList } {} = .reachesDo none ∧
    (run { method := "BAD METHOD".toList } [.begin 0 {}]).panicked = some .nilRequest ∧
    buildRequest {} { urlParses := false } = .reachesDo none := by
  refine ⟨by decide, by rfl, by decide, by rfl, by decide⟩

/-! ## `step` follows the transition rules -/

theorem step_of_not_enabled (cfg : Config) (s : State) (e : Event)
    (h : enabled cfg s e = false) : step cfg s e = s := by
  by_cases hp : s.panicked.isSome = true
  · cases e <;> simp [step, hp]
  · have hn : s.panicked.isNone = true := by
      cases hs : s.panicked with
      | none => rfl
      | some p => rw [hs] at hp; simp at hp
    cases e <;> simp only [enabled, hn, Bool.true_and, decide_eq_false_iff_not] at h <;>
      simp [step, hp, h]

theorem step_of_enabled (cfg : Config) (s : State) (e : Event)
    (h : enabled cfg s e = true) : Step cfg s e (step cfg s e) := by
  cases e with
  | begin i env =>
    simp only [enabled, Bool.and_eq_true, Option.isNone_iff_eq_none, decide_eq_true_eq] at h
    obtain ⟨hp, hpc⟩ := h
    simp only [step, hp, hpc, Option.isSome_none, Bool.false_eq_true, if_false, if_true]
    by_cases hs : s.stopped = true
    · rw [if_pos hs]; exact Step.seeStop i env hpc hs
    · rw [if_neg hs]
      have hs' : s.stopped = false := by simpa using hs
      cases hb : buildRequest cfg env with
      | abandoned => exact Step.abandon i env hpc hs' hb
      | nilDeref => exact Step.nilHeader i env hpc hs' hb
      | reachesDo r =>
        cases r with
        | none => exact Step.nilDo i env hpc hs' hb
        | some req => exact Step.send i env req hpc hs' hb
  | respond i st =>
    simp only [enabled, Bool.and_eq_true, Option.isNone_iff_eq_none, decide_eq_true_eq] at h
    obtain ⟨hp, hpc⟩ := h
    simp only [step, hp, hpc, Option.isSome_none, Bool.false_eq_true, if_false, if_true]
    exact Step.respond i st hpc
  | addTotal i =>
    simp only [enabled, Bool.and_eq_true, Option.isNone_iff_eq_none, decide_eq_true_eq] at h
    obtain ⟨hp, hpc⟩ := h
    simp only [step, hp, hpc, Option.isSome_none, Bool.false_eq_true, if_false, if_true]
    exact Step.addTotal i hpc
  | fail i =>
    simp only [enabled, Bool.and_eq_true, Option.isNone_iff_eq_none, decide_eq_true_eq] at h
    obtain ⟨hp, hpc⟩ := h
    simp only [step, hp, hpc, Option.isSome_none, Bool.false_eq_true, if_false, if_true]
    exact Step.fail i hpc
  | checkQuota i =>
    simp only [enabled, Bool.and_eq_true, Option.isNone_iff_eq_none, decide_eq_true_eq] at h
    obtain ⟨hp, hpc⟩ := h
    simp only [step, hp, hpc, Option.isSome_none, Bool.false_eq_true, if_false, if_true]
    by_cases hq : cfg.requests > 0 ∧ (s.total : Int) ≥ cfg.requests
    · rw [if_pos hq]; exact Step.quotaHit i hpc hq.1 hq.2
    · rw [if_neg hq]; exact Step.quotaMiss i hpc hq
  | fire i =>
    simp only [enabled, Bool.and_eq_true, Option.isNone_iff_eq_none, decide_eq_true_eq] at h
    obtain ⟨hp, hpc⟩ := h
    simp only [step, hp, hpc, Option.isSome_none, Bool.false_eq_true, if_false, if_true]
    exact Step.fire i hpc
  | timer =>
    simp only [enabled, Bool.and_eq_true, Option.isNone_iff_eq_none, decide_eq_true_eq] at h
    obtain ⟨hp, ht⟩ := h
    simp only [step, hp, ht, Option.isSome_none, Bool.false_eq_true, if_false, if_true]
    exact Step.timer ht
  | interrupt =>
    simp only [enabled, Option.isNone_iff_eq_none] at h
    simp only [step, h, Option.isSome_none, Bool.false_eq_true, if_false]
    exact Step.interrupt

/-- Every step is a stutter or one of the transition rules. -/
theorem step_cases (cfg : Config) (s : State) (e : Event) :
    step cfg s e = s ∨ Step cfg s e (step cfg s e) := by
  by_cases h : enabled cfg s e = true
  · exact Or.inr (step_of_enabled cfg s e h)
  · exact Or.inl (step_of_not_enabled cfg s e (by simpa using h))

/-- A property kept by every transition rule holds after every run. -/
theorem run_induction (cfg : Config) (P : State → Prop) (h0 : P (init cfg))
    (hstep : ∀ s e s1, P s → Step cfg s e s1 → P s1) (tr : List Event) : P (run cfg tr) := by
  have gen : ∀ (tr : List Event) (s : State), P s → P (tr.foldl (step cfg) s) := by
    intro tr
    induction tr with
    | nil => intro s hs; exact hs
    | cons e es ih =>
      intro s hs
      apply ih
      rcases step_cases cfg s e with h | h
      · rw [h]; exact hs
      · exact hstep s e _ hs h
  exact gen tr _ h0

/-! ## The stop signal -/

theorem requestStop_of_stopped (s : State) (hi : StopInv s) (h : s.stopped = true) :
    requestStop s = s := by
  unfold requestStop
  rw [if_pos (by rw [hi.1, h])]

theorem requestStop_of_not_stopped (s : State) (hi : StopInv s) (h : s.stopped = false) :
    requestStop s = { s with onceDone := true, stopped := true, closes := 1 } := by
  obtain ⟨h1, h2, -⟩ := hi
  rw [h] at h1 h2
  simp only [Bool.false_eq_true, if_false] at h2
  unfold requestStop closeStop
  simp [h1, h, h2]

theorem stopInv_requestStop (s : State) (hi : StopInv s) : StopInv (requestStop s) := by
  cases h : s.stopped
  · rw [requestStop_of_not_stopped s hi h]
    exact ⟨rfl, rfl, hi.2.2⟩
  · rw [requestStop_of_stopped s hi h]
    exact hi

theorem stopInv_step (cfg : Config) (s : State) (e : Event) (s1 : State)
    (hi : StopInv s) (hs : Step cfg s e s1) : StopInv s1 := by
  cases hs with
  | seeStop i env _ _ => exact hi
  | abandon i env _ _ _ => exact hi
  | nilHeader i env _ _ _ => exact ⟨hi.1, hi.2.1, by simp⟩
  | nilDo i env _ _ _ => exact ⟨hi.1, hi.2.1, by simp⟩
  | send i env req _ _ _ => exact hi
  | respond i st _ => exact hi
  | addTotal i _ => exact hi
  | fail i _ => exact hi
  | quotaHit i _ _ _ => exact hi
  | quotaMiss i _ _ => exact hi
  | fire i _ => exact stopInv_requestStop s hi
  | timer _ => exact stopInv_requestStop s hi
  | interrupt => exact stopInv_requestStop s hi

theorem stopInv_run (cfg : Config) (tr : List Event) : StopInv (run cfg tr) :=
  run_induction cfg StopInv ⟨rfl, rfl, by simp [init]⟩
    (fun s e s1 hi hs => stopInv_step cfg s e s1 hi hs) tr

theorem requestStop_stopped_mono (s : State) (h : s.stopped = true) :
    (requestStop s).stopped = true := by
  unfold requestStop closeStop
  split
  · exact h
  · simp [h]

theorem stopped_step (cfg : Config) (s : State) (e : Event) (s1 : State)
    (h : s.stopped = true) (hs : Step cfg s e s1) : s1.stopped = true := by
  cases hs with
  | seeStop i env _ _ => exact h
  | abandon i env _ _ _ => exact h
  | nilHeader i env _ _ _ => exact h
  | nilDo i env _ _ _ => exact h
  | send i env req _ _ _ => exact h
  | respond i st _ => exact h
  | addTotal i _ => exact h
  | fail i _ => exact h
  | quotaHit i _ _ _ => exact h
  | quotaMiss i _ _ => exact h
  | fire i _ => exact requestStop_stopped_mono s h
  | timer _ => exact requestStop_stopped_mono s h
  | interrupt => exact requestStop_stopped_mono s h

theorem stopped_foldl (cfg : Config) (tr : List Event) (s : State) (h : s.stopped = true) :
    (tr.foldl (step cfg) s).stopped = true := by
  induction tr generalizing s with
  | nil => exact h
  | cons e es ih =>
    apply ih
    rcases step_cases cfg s e with hs | hs
    · rw [hs]; exact h
    · exact stopped_step cfg s e _ h hs

theorem run_append (cfg : Config) (tr more : List Event) :
    run cfg (tr ++ more) = more.foldl (step cfg) (run cfg tr) := by
  simp [run, List.foldl_append]

/-- C2: after any sequence of events (timer, interrupt and quota requests from
any number of workers, interleaved with everything else) `close(stop)` has
executed at most once, and exactly once when the signal is set; no
close of a closed channel ever happens; a request on an unset signal sets it
and executes the close; a request on a set signal leaves the whole state
unchanged; and once set the signal stays set in every continuation. -/
theorem stop_fires_at_most_once (cfg : Config) (tr : List Event) :
    (run cfg tr).closes ≤ 1 ∧
    ((run cfg tr).stopped = true ↔ (run cfg tr).closes = 1) ∧
    (run cfg tr).panicked ≠ some Panic.closeOfClosed ∧
    ((run cfg tr).stopped = false →
      (requestStop (run cfg tr)).stopped = true ∧
      (requestStop (run cfg tr)).closes = 1 ∧
      (requestStop (run cfg tr)).panicked = (run cfg tr).panicked) ∧
    ((run cfg tr).stopped = true → requestStop (run cfg tr) = run cfg tr) ∧
    requestStop (requestStop (run cfg tr)) = requestStop (run cfg tr) ∧
    (∀ more : List Event, (run cfg tr).stopped = true →
      (run cfg (tr ++ more)).stopped = true ∧ (run cfg (tr ++ more)).closes = 1) := by
  have hi := stopInv_run cfg tr
  have hcl : ∀ t : State, StopInv t → (t.stopped = true ↔ t.closes = 1) := by
    intro t ht
    obtain ⟨-, h2, -⟩ := ht
    cases hst : t.stopped <;> simp [hst] at h2 <;> simp [h2]
  refine ⟨?_, hcl _ hi, hi.2.2, ?_, ?_, ?_, ?_⟩
  · obtain ⟨-, h2, -⟩ := hi
    rw [h2]; split <;> omega
  · intro h
    rw [requestStop_of_not_stopped _ hi h]
    exact ⟨rfl, rfl, rfl⟩
  · exact requestStop_of_stopped _ hi
  · exact requestStop_of_stopped _ (stopInv_requestStop _ hi) (by
      cases h : (run cfg tr).stopped
      · rw [requestStop_of_not_stopped _ hi h]
      · exact requestStop_stopped_mono _ h)
  · intro more h
    have h1 : (run cfg (tr ++ more)).stopped = true := by
      rw [run_append]; exact stopped_foldl cfg more _ h
    exact ⟨h1, (hcl _ (stopInv_run cfg (tr ++ more))).1 h1⟩

/-! ## The quota -/

theorem sum_map_set (w : PC → Nat) (l : List PC) (i : Nat) (a b : PC)
    (h : l[i]? = some a) : ((l.set i b).map w).sum + w a = (l.map w).sum + w b := by
  induction l generalizing i with
  | nil => simp at h
  | cons c cs ih =>
    cases i with
    | zero =>
      simp only [List.getElem?_cons_zero, Option.some.injEq] at h
      subst h
      simp only [List.set_cons_zero, List.map_cons, List.sum_cons]
      omega
    | succ k =>
      simp only [List.getElem?_cons_succ] at h
      have := ih k h
      simp only [List.set_cons_succ, List.map_cons, List.sum_cons]
      omega

theorem pending_goto (s : State) (i : Nat) (a b : PC) (h : s.workers[i]? = some a) :
    (s.goto i b).pendingCount + a.pending = s.pendingCount + b.pending :=
  sum_map_set PC.pending s.workers i a b h

theorem pending_le_length (l : List PC) : (l.map PC.pending).sum ≤ l.length := by
  induction l with
  | nil => simp
  | cons c cs ih =>
    have hc : c.pending ≤ 1 := by cases c <;> simp [PC.pending]
    simp only [List.map_cons, List.sum_cons, List.length_cons]
    omega

theorem pending_requestStop (s : State) : (requestStop s).pendingCount = s.pendingCount := by
  unfold State.pendingCount
  rw [requestStop_workers]

theorem requestStop_total (s : State) : (requestStop s).total = s.total :=
  (requestStop_counters s).2.1

theorem quotaInv_step (cfg : Config) (hn : cfg.requests > 0) (s : State) (e : Event)
    (s1 : State) (hi : QuotaInv cfg s) (hs : Step cfg s e s1) : QuotaInv cfg s1 := by
  obtain ⟨hlen, hq⟩ := hi
  have hple : s.pendingCount ≤ poolSize cfg := by
    rw [← hlen]; exact pending_le_length s.workers
  cases hs with
  | seeStop i env hpc _ =>
    have hg := pending_goto s i _ PC.exited hpc
    simp only [PC.pending] at hg
    refine ⟨by simp [State.goto, hlen], ?_⟩
    have ht : (s.goto i PC.exited).total = s.total := rfl
    rw [ht]
    rcases hq with h | h
    · exact Or.inl h
    · right; omega
  | abandon i env hpc _ _ =>
    have hg := pending_goto s i _ PC.exited hpc
    simp only [PC.pending] at hg
    refine ⟨by simp [State.goto, hlen], ?_⟩
    have ht : (s.goto i PC.exited).total = s.total := rfl
    rw [ht]
    rcases hq with h | h
    · exact Or.inl h
    · right; omega
  | nilHeader i env _ _ _ => exact ⟨hlen, hq⟩
  | nilDo i env _ _ _ => exact ⟨hlen, hq⟩
  | send i env req hpc _ _ =>
    have hg := pending_goto s i _ PC.doing hpc
    simp only [PC.pending] at hg
    refine ⟨by simp [State.goto, hlen], ?_⟩
    show ((s.total : Int) < cfg.requests ∨
      (s.total : Int) + (s.goto i PC.doing).pendingCount + 1 ≤ cfg.requests + poolSize cfg)
    rcases hq with h | h
    · exact Or.inl h
    · right; omega
  | respond i st hpc =>
    have hg := pending_goto s i _ PC.counted hpc
    simp only [PC.pending] at hg
    refine ⟨by simp [State.goto, hlen], ?_⟩
    show ((s.total : Int) < cfg.requests ∨
      (s.total : Int) + (s.goto i PC.counted).pendingCount + 1 ≤ cfg.requests + poolSize cfg)
    rcases hq with h | h
    · exact Or.inl h
    · right; omega
  | addTotal i hpc =>
    have hg := pending_goto s i _ PC.recorded hpc
    simp only [PC.pending] at hg
    refine ⟨by simp [State.goto, hlen], ?_⟩
    show (((s.total + 1 : Nat) : Int) < cfg.requests ∨
      ((s.total + 1 : Nat) : Int) + (s.goto i PC.recorded).pendingCount + 1
        ≤ cfg.requests + poolSize cfg)
    rcases hq with h | h
    · by_cases h2 : ((s.total + 1 : Nat) : Int) < cfg.requests
      · exact Or.inl h2
      · right; push_cast at h2 ⊢; omega
    · right; push_cast; omega
  | fail i hpc =>
    have hg := pending_goto s i _ PC.recorded hpc
    simp only [PC.pending] at hg
    refine ⟨by simp [State.goto, hlen], ?_⟩
    show ((s.total : Int) < cfg.requests ∨
      (s.total : Int) + (s.goto i PC.recorded).pendingCount + 1 ≤ cfg.requests + poolSize cfg)
    rcases hq with h | h
    · exact Or.inl h
    · right; omega
  | quotaHit i hpc _ _ =>
    have hg := pending_goto s i _ PC.stopping hpc
    simp only [PC.pending] at hg
    refine ⟨by simp [State.goto, hlen], ?_⟩
    show ((s.total : Int) < cfg.requests ∨
      (s.total : Int) + (s.goto i PC.stopping).pendingCount + 1 ≤ cfg.requests + poolSize cfg)
    rcases hq with h | h
    · exact Or.inl h
    · right; omega
  | quotaMiss i hpc hmiss =>
    refine ⟨by simp [State.goto, hlen], ?_⟩
    left
    show (s.total : Int) < cfg.requests
    by_contra hge
    exact hmiss ⟨hn, by omega⟩
  | fire i hpc =>
    have hpc1 : (requestStop s).workers[i]? = some PC.stopping := by
      rw [requestStop_workers]; exact hpc
    have hg := pending_goto (requestStop s) i _ PC.exited hpc1
    simp only [PC.pending] at hg
    rw [pending_requestStop] at hg
    refine ⟨by simp [State.goto, requestStop_workers, hlen], ?_⟩
    show (((requestStop s).total : Int) < cfg.requests ∨
      ((requestStop s).total : Int) + ((requestStop s).goto i PC.exited).pendingCount + 1
        ≤ cfg.requests + poolSize cfg)
    rw [requestStop_total]
    rcases hq with h | h
    · exact Or.inl h
    · right; omega
  | timer _ =>
    refine ⟨by rw [requestStop_workers]; exact hlen, ?_⟩
    rw [requestStop_total, pending_requestStop]; exact hq
  | interrupt =>
    refine ⟨by rw [requestStop_workers]; exact hlen, ?_⟩
    rw [requestStop_total, pending_requestStop]; exact hq

theorem quotaInv_init (cfg : Config) (hn : cfg.requests > 0) : QuotaInv cfg (init cfg) := by
  refine ⟨by simp [init], Or.inl ?_⟩
  show ((0 : Nat) : Int) < cfg.requests
  simpa using hn

theorem quotaInv_run (cfg : Config) (hn : cfg.requests > 0) (tr : List Event) :
    QuotaInv cfg (run cfg tr) :=
  run_induction cfg (QuotaInv cfg) (quotaInv_init cfg hn)
    (fun s e s1 hi hs => quotaInv_step cfg hn s e s1 hi hs) tr

theorem total_le_of_quotaInv (cfg : Config) (s : State) (hi : QuotaInv cfg s) :
    (s.total : Int) + 1 ≤ cfg.requests + poolSize cfg := by
  rcases hi.2 with h | h <;> omega

/-- C1 fails on the code: `-n` is documented as the total number of requests
(line 29) and the report prints Total as `total + errorCount` (line 163), but
the quota test of line 148 reads `total` alone, so a failed attempt is not
counted against the quota.  With quota 1 and one worker, two failed attempts
give `succeeded + failed = 2 > 1 + (1 - 1)`; with quota 2, one worker and the
outcomes error, response, error, response the run completes with the report
`(4, 2, 2)`. -/
theorem failed_attempts_exceed_quota :
    poolSize { requests := 1 } = 1 ∧
    (run { requests := 1 } [.begin 0 {}, .fail 0, .checkQuota 0, .begin 0 {}, .fail 0]).total
      + (run { requests := 1 }
          [.begin 0 {}, .fail 0, .checkQuota 0, .begin 0 {}, .fail 0]).errorCount = 2 ∧
    ¬ ((run { requests := 1 } [.begin 0 {}, .fail 0, .checkQuota 0, .begin 0 {}, .fail 0]).total
      + (run { requests := 1 }
          [.begin 0 {}, .fail 0, .checkQuota 0, .begin 0 {}, .fail 0]).errorCount
      ≤ 1 + (1 - 1)) ∧
    (run { requests := 2 } mixedOutcomes).complete = true ∧
    (run { requests := 2 } mixedOutcomes).report = (4, 2, 2) := by
  refine ⟨by rfl, by rfl, ?_, by rfl, by rfl⟩
  have h : (run { requests := 1 } [.begin 0 {}, .fail 0, .checkQuota 0, .begin 0 {}, .fail 0]).total
      + (run { requests := 1 }
          [.begin 0 {}, .fail 0, .checkQuota 0, .begin 0 {}, .fail 0]).errorCount = 2 := by rfl
  rw [h]; decide

/-- What the quota test of line 148 does bound: for every quota `n > 0`, every
pool size `p ≥ 1` and every sequence of events (responses and transport errors
mixed in any way, any interleaving, timer and interrupt included), in every
reachable state the counter `total` is at most `n + (p - 1)`. -/
theorem succeeded_within_quota_overshoot (cfg : Config) (n p : Nat) (tr : List Event)
    (hn : cfg.requests = n) (h0 : 0 < n) (hp : poolSize cfg = p) (h1 : 1 ≤ p) :
    (run cfg tr).total ≤ n + (p - 1) := by
  have hpos : cfg.requests > 0 := by rw [hn]; exact_mod_cast h0
  have h := total_le_of_quotaInv cfg _ (quotaInv_run cfg hpos tr)
  rw [hn, hp] at h
  omega

/-- The bound on `total` is reached: quota 2, two workers, both in flight when the
first response arrives: `total` ends at `3 = 2 + (2 - 1)`. -/
theorem succeeded_within_quota_overshoot_witness :
    (run { requests := 2, concurrency := 2 }
      [.begin 0 {}, .begin 1 {}, .respond 0 200, .addTotal 0, .checkQuota 0,
       .begin 0 {}, .respond 1 200, .addTotal 1, .respond 0 200, .addTotal 0]).total = 3 ∧
    (run { requests := 2, concurrency := 2 }
      [.begin 0 {}, .begin 1 {}, .respond 0 200, .addTotal 0, .checkQuota 0,
       .begin 0 {}, .respond 1 200, .addTotal 1, .respond 0 200, .addTotal 0]).total
      ≤ 2 + (2 - 1) :=
  ⟨by rfl,
   succeeded_within_quota_overshoot { requests := 2, concurrency := 2 } 2 2 _ rfl (by decide)
     (by rfl) (by decide)⟩

/-! ## Runs in which every attempt gets a response -/

theorem goto_get (s : State) (i j : Nat) (pc q : PC)
    (h : (s.goto i pc).workers[j]? = some q) : (j = i ∧ q = pc) ∨ s.workers[j]? = some q := by
  simp only [State.goto, List.getElem?_set] at h
  by_cases hij : i = j
  · rw [if_pos hij] at h
    split at h
    · left; exact ⟨hij.symm, by injection h with h; exact h.symm⟩
    · cases h
  · rw [if_neg hij] at h
    exact Or.inr h

theorem weight_goto (s : State) (i : Nat) (a b : PC) (h : s.workers[i]? = some a) :
    (s.goto i b).weight + a.weight = s.weight + b.weight :=
  sum_map_set PC.weight s.workers i a b h

theorem buildsRequest_of_eq (cfg : Config) (env : Env) (b : Build)
    (hb : buildRequest cfg env = b) (hok : buildsRequest cfg env = true) :
    ∃ req, b = .reachesDo (some req) := by
  unfold buildsRequest at hok
  rw [hb] at hok
  cases b with
  | abandoned => simp at hok
  | nilDeref => simp at hok
  | reachesDo r =>
    cases r with
    | none => simp at hok
    | some req => exact ⟨req, rfl⟩

theorem requestStop_panicked (s : State) (hi : StopInv s) :
    (requestStop s).panicked = s.panicked := by
  cases h : s.stopped
  · rw [requestStop_of_not_stopped s hi h]
  · rw [requestStop_of_stopped s hi h]

/-- A property kept by the transition rules of the events allowed by `ok` holds
after every run made of such events. -/
theorem run_induction_of (cfg : Config) (ok : Event → Bool) (P : State → Prop)
    (h0 : P (init cfg))
    (hstep : ∀ s e s1, StopInv s → P s → ok e = true → Step cfg s e s1 → P s1)
    (tr : List Event) (hall : ∀ e ∈ tr, ok e = true) : P (run cfg tr) := by
  have gen : ∀ (tr : List Event) (s : State), (∀ e ∈ tr, ok e = true) → StopInv s → P s →
      P (tr.foldl (step cfg) s) := by
    intro tr
    induction tr with
    | nil => intro s _ _ hs; exact hs
    | cons e es ih =>
      intro s hok hsi hs
      have hoke : ok e = true := hok e (List.mem_cons_self _ _)
      have hokes : ∀ x ∈ es, ok x = true := fun x hx => hok x (List.mem_cons_of_mem _ hx)
      rcases step_cases cfg s e with h | h
      · simp only [List.foldl_cons]; rw [h]; exact ih s hokes hsi hs
      · exact ih _ hokes (stopInv_step cfg s e _ hsi h) (hstep s e _ hsi hs hoke h)
  exact gen tr _ hall (stopInv_run cfg []) h0

theorem respInv_step (cfg : Config) (s : State) (e : Event) (s1 : State) (hsi : StopInv s)
    (hi : RespInv cfg s) (he : e.allRespond cfg = true) (hs : Step cfg s e s1) :
    RespInv cfg s1 := by
  obtain ⟨herr, hpan, hstop, hw⟩ := hi
  have frame : ∀ (i : Nat) (pc : PC), (pc = PC.stopping ∨ pc = PC.exited →
      cfg.requests ≤ (s.total : Int)) →
      ∀ j : Nat, (s.goto i pc).workers[j]? = some PC.stopping ∨
        (s.goto i pc).workers[j]? = some PC.exited → cfg.requests ≤ (s.total : Int) := by
    intro i pc hpc j hj
    rcases hj with hj | hj
    · rcases goto_get s i j pc _ hj with ⟨-, h⟩ | h
      · exact hpc (Or.inl h.symm)
      · exact hw j (Or.inl h)
    · rcases goto_get s i j pc _ hj with ⟨-, h⟩ | h
      · exact hpc (Or.inr h.symm)
      · exact hw j (Or.inr h)
  cases hs with
  | seeStop i env hpc hst =>
    exact ⟨herr, hpan, hstop, frame i _ (fun _ => hstop hst)⟩
  | abandon i env hpc _ hb =>
    obtain ⟨req, hreq⟩ := buildsRequest_of_eq cfg env _ hb he
    cases hreq
  | nilHeader i env _ _ hb =>
    obtain ⟨req, hreq⟩ := buildsRequest_of_eq cfg env _ hb he
    cases hreq
  | nilDo i env _ _ hb =>
    obtain ⟨req, hreq⟩ := buildsRequest_of_eq cfg env _ hb he
    cases hreq
  | send i env req hpc _ _ =>
    exact ⟨herr, hpan, hstop, frame i _ (by intro h; rcases h with h | h <;> cases h)⟩
  | respond i st hpc =>
    exact ⟨herr, hpan, hstop, frame i _ (by intro h; rcases h with h | h <;> cases h)⟩
  | addTotal i hpc =>
    refine ⟨herr, hpan, ?_, ?_⟩
    · intro h
      have := hstop h
      show cfg.requests ≤ ((s.total + 1 : Nat) : Int)
      push_cast; omega
    · intro j hj
      have := frame i PC.recorded (by intro h; rcases h with h | h <;> cases h) j hj
      show cfg.requests ≤ ((s.total + 1 : Nat) : Int)
      push_cast; omega
  | fail i hpc => simp [Event.allRespond] at he
  | quotaHit i hpc _ hge =>
    exact ⟨herr, hpan, hstop, frame i _ (fun _ => hge)⟩
  | quotaMiss i hpc _ =>
    exact ⟨herr, hpan, hstop, frame i _ (by intro h; rcases h with h | h <;> cases h)⟩
  | fire i hpc =>
    have hge : cfg.requests ≤ (s.total : Int) := hw i (Or.inl hpc)
    obtain ⟨-, ht, he2, -⟩ := requestStop_counters s
    have hp2 : (requestStop s).panicked = none := by
      rw [requestStop_panicked s hsi]; exact hpan
    have hge2 : cfg.requests ≤ (((requestStop s).goto i PC.exited).total : Int) := by
      show cfg.requests ≤ ((requestStop s).total : Int)
      rw [ht]; exact hge
    exact ⟨he2.trans herr, hp2, fun _ => hge2, fun j _ => hge2⟩
  | timer _ => simp [Event.allRespond] at he
  | interrupt => simp [Event.allRespond] at he

theorem respInv_run (cfg : Config) (tr : List Event)
    (hall : ∀ e ∈ tr, e.allRespond cfg = true) : RespInv cfg (run cfg tr) :=
  run_induction_of cfg (Event.allRespond cfg) (RespInv cfg)
    ⟨rfl, rfl, by simp [init], by
      intro i hi
      simp only [init, List.getElem?_replicate] at hi
      rcases hi with hi | hi <;> (split at hi <;> cases hi)⟩
    (fun s e s1 hsi hi he hs => respInv_step cfg s e s1 hsi hi he hs) tr hall

/-- Every transition of a run in which every attempt gets a response uses up
weight, unless it adds to `total`. -/
theorem weight_step (cfg : Config) (s : State) (e : Event) (s1 : State)
    (he : e.allRespond cfg = true) (hs : Step cfg s e s1) :
    s1.weight + 1 + 4 * s.total ≤ s.weight + 4 * s1.total := by
  have hrw : ∀ (i : Nat) (b : PC), ((requestStop s).goto i b).weight = (s.goto i b).weight := by
    intro i b
    simp [State.weight, State.goto, requestStop_workers]
  cases hs with
  | seeStop i env hpc _ =>
    have hg := weight_goto s i _ PC.exited hpc
    simp only [PC.weight] at hg
    show (s.goto i PC.exited).weight + 1 + 4 * s.total ≤ s.weight + 4 * s.total
    omega
  | abandon i env hpc _ hb =>
    obtain ⟨req, hreq⟩ := buildsRequest_of_eq cfg env _ hb he
    cases hreq
  | nilHeader i env _ _ hb =>
    obtain ⟨req, hreq⟩ := buildsRequest_of_eq cfg env _ hb he
    cases hreq
  | nilDo i env _ _ hb =>
    obtain ⟨req, hreq⟩ := buildsRequest_of_eq cfg env _ hb he
    cases hreq
  | send i env req hpc _ _ =>
    have hg := weight_goto s i _ PC.doing hpc
    simp only [PC.weight] at hg
    show (s.goto i PC.doing).weight + 1 + 4 * s.total ≤ s.weight + 4 * s.total
    omega
  | respond i st hpc =>
    have hg := weight_goto s i _ PC.counted hpc
    simp only [PC.weight] at hg
    show (s.goto i PC.counted).weight + 1 + 4 * s.total ≤ s.weight + 4 * s.total
    omega
  | addTotal i hpc =>
    have hg := weight_goto s i _ PC.recorded hpc
    simp only [PC.weight] at hg
    show (s.goto i PC.recorded).weight + 1 + 4 * s.total ≤ s.weight + 4 * (s.total + 1)
    omega
  | fail i hpc => simp [Event.allRespond] at he
  | quotaHit i hpc _ _ =>
    have hg := weight_goto s i _ PC.stopping hpc
    simp only [PC.weight] at hg
    show (s.goto i PC.stopping).weight + 1 + 4 * s.total ≤ s.weight + 4 * s.total
    omega
  | quotaMiss i hpc _ =>
    have hg := weight_goto s i _ PC.loop hpc
    simp only [PC.weight] at hg
    show (s.goto i PC.loop).weight + 1 + 4 * s.total ≤ s.weight + 4 * s.total
    omega
  | fire i hpc =>
    have hg := weight_goto s i _ PC.exited hpc
    simp only [PC.weight] at hg
    show ((requestStop s).goto i PC.exited).weight + 1 + 4 * s.total
      ≤ s.weight + 4 * (requestStop s).total
    rw [hrw, requestStop_total]
    omega
  | timer _ => simp [Event.allRespond] at he
  | interrupt => simp [Event.allRespond] at he

theorem moves_bound (cfg : Config) (tr : List Event) (s : State)
    (hall : ∀ e ∈ tr, e.allRespond cfg = true) :
    moves cfg s tr + (tr.foldl (step cfg) s).weight + 4 * s.total
      ≤ s.weight + 4 * (tr.foldl (step cfg) s).total := by
  induction tr generalizing s with
  | nil => simp [moves]
  | cons e es ih =>
    have hoke : e.allRespond cfg = true := hall e (List.mem_cons_self _ _)
    have ih1 := ih (step cfg s e) (fun x hx => hall x (List.mem_cons_of_mem _ hx))
    simp only [moves, List.foldl_cons]
    by_cases hen : enabled cfg s e = true
    · have hw := weight_step cfg s e _ hoke (step_of_enabled cfg s e hen)
      rw [if_pos hen]
      omega
    · have hst := step_of_not_enabled cfg s e (by simpa using hen)
      rw [if_neg hen]
      rw [hst] at ih1 ⊢
      omega

theorem weight_init (cfg : Config) : (init cfg).weight = 3 * poolSize cfg := by
  simp [init, State.weight, PC.weight, Nat.mul_comm]

/-- A live process with a worker that has not returned has an enabled worker step. -/
theorem progress (cfg : Config) (s : State) (hp : s.panicked = none)
    (hc : s.complete = false) :
    ∃ i : Nat, (∀ env, enabled cfg s (.begin i env) = true) ∨
      (enabled cfg s (.respond i 200) = true ∧ enabled cfg s (.fail i) = true) ∨
      enabled cfg s (.addTotal i) = true ∨
      enabled cfg s (.checkQuota i) = true ∨ enabled cfg s (.fire i) = true := by
  simp only [State.complete, hp, Option.isNone_none, Bool.true_and, List.all_eq_false,
    decide_eq_true_eq] at hc
  obtain ⟨pc, hmem, hne⟩ := hc
  obtain ⟨i, hi⟩ := List.mem_iff_getElem?.1 hmem
  refine ⟨i, ?_⟩
  cases pc with
  | loop => left; intro env; simp [enabled, hp, hi]
  | doing => right; left; simp [enabled, hp, hi]
  | counted => right; right; left; simp [enabled, hp, hi]
  | recorded => right; right; right; left; simp [enabled, hp, hi]
  | stopping => right; right; right; right; simp [enabled, hp, hi]
  | exited => exact absurd rfl hne

theorem first_worker_exited (s : State) (hc : s.complete = true) (hlen : 1 ≤ s.workers.length) :
    s.workers[0]? = some PC.exited := by
  simp only [State.complete, Bool.and_eq_true, List.all_eq_true, decide_eq_true_eq] at hc
  cases hw : s.workers with
  | nil => rw [hw] at hlen; simp at hlen
  | cons c cs =>
    have := hc.2 c (by rw [hw]; exact List.mem_cons_self _ _)
    simp [this]

/-- C5: with quota `n > 0` and pool size `p ≥ 1`, in a run where every attempt
gets a response and neither the timer nor a signal fires: when all workers have
returned the report has Errors = 0 and `n ≤ Success = Total ≤ n + (p - 1)`;
nothing panics; the run makes at most `4 * (n + (p - 1)) + 3 * p` moves whatever
the interleaving; and as long as a worker has not returned some worker step is
enabled, so every run that cannot move any more is complete. -/
theorem all_responses_report (cfg : Config) (n p : Nat) (tr : List Event)
    (hn : cfg.requests = n) (h0 : 0 < n) (hp : poolSize cfg = p) (h1 : 1 ≤ p)
    (hall : ∀ e ∈ tr, e.allRespond cfg = true) :
    ((run cfg tr).complete = true →
      (run cfg tr).report.2.2 = 0 ∧
      (run cfg tr).report.2.1 = (run cfg tr).report.1 ∧
      n ≤ (run cfg tr).report.2.1 ∧
      (run cfg tr).report.1 ≤ n + (p - 1)) ∧
    (run cfg tr).panicked = none ∧
    moves cfg (init cfg) tr ≤ 4 * (n + (p - 1)) + 3 * p ∧
    ((run cfg tr).complete = false →
      ∃ i : Nat, (∀ env, enabled cfg (run cfg tr) (.begin i env) = true) ∨
        (enabled cfg (run cfg tr) (.respond i 200) = true ∧
          enabled cfg (run cfg tr) (.fail i) = true) ∨
        enabled cfg (run cfg tr) (.addTotal i) = true ∨
        enabled cfg (run cfg tr) (.checkQuota i) = true ∨
        enabled cfg (run cfg tr) (.fire i) = true) := by
  have hpos : cfg.requests > 0 := by rw [hn]; exact_mod_cast h0
  have hq := quotaInv_run cfg hpos tr
  have hle := total_le_of_quotaInv cfg _ hq
  obtain ⟨herr, hpan, -, hw⟩ := respInv_run cfg tr hall
  rw [hn, hp] at hle
  have hub : (run cfg tr).total ≤ n + (p - 1) := by omega
  refine ⟨?_, hpan, ?_, progress cfg _ hpan⟩
  · intro hc
    have h0x := first_worker_exited _ hc (by rw [hq.1, hp]; exact h1)
    have hge := hw 0 (Or.inr h0x)
    rw [hn] at hge
    simp only [State.report, herr, Nat.add_zero]
    exact ⟨trivial, trivial, by exact_mod_cast hge, hub⟩
  · have hm := moves_bound cfg tr (init cfg) hall
    rw [weight_init, hp] at hm
    have ht0 : (init cfg).total = 0 := rfl
    rw [ht0] at hm
    have hub2 : (List.foldl (step cfg) (init cfg) tr).total ≤ n + (p - 1) := hub
    omega

/-- C5 at quota 10 and concurrency 4, every response a 200: the schedule in
which one worker makes the ten attempts reports `Total: 10, Success: 10,
Errors: 0`, and the schedule in which all four workers are in flight at the
tenth response reports 13, the largest value within the tolerance. -/
theorem all_responses_report_witness :
    ((run { requests := 10, concurrency := 4 } oneWorkerSchedule).complete = true ∧
     (run { requests := 10, concurrency := 4 } oneWorkerSchedule).report = (10, 10, 0)) ∧
    ((run { requests := 10, concurrency := 4 } overshootSchedule).complete = true ∧
     (run { requests := 10, concurrency := 4 } overshootSchedule).report = (13, 13, 0)) ∧
    (10 ≤ (run { requests := 10, concurrency := 4 } oneWorkerSchedule).report.2.1 ∧
     (run { requests := 10, concurrency := 4 } oneWorkerSchedule).report.1 ≤ 10 + (4 - 1)) :=
  ⟨⟨by rfl, by rfl⟩, ⟨by rfl, by rfl⟩,
   have h := (all_responses_report { requests := 10, concurrency := 4 } 10 4 oneWorkerSchedule
      rfl (by decide) (by rfl) (by decide) (by decide)).1 (by rfl)
   ⟨h.2.2.1, h.2.2.2⟩⟩

/-! ## Runs in which every attempt fails -/

theorem inFlight_goto (s : State) (i : Nat) (a b : PC) (h : s.workers[i]? = some a) :
    (s.goto i b).inFlight + a.inFlight = s.inFlight + b.inFlight :=
  sum_map_set PC.inFlight s.workers i a b h

theorem failInv_step (cfg : Config) (hn : cfg.requests > 0) (s : State) (e : Event)
    (s1 : State) (hi : FailInv s) (he : e.allFail cfg = true) (hs : Step cfg s e s1) :
    FailInv s1 := by
  obtain ⟨htot, hreq, hstop, hpan, hpcs, hsent⟩ := hi
  have frame : ∀ (i : Nat) (b : PC), (b = PC.loop ∨ b = PC.doing ∨ b = PC.recorded) →
      ∀ (j : Nat) (pc : PC), (s.goto i b).workers[j]? = some pc →
        pc = PC.loop ∨ pc = PC.doing ∨ pc = PC.recorded := by
    intro i b hb j pc hj
    rcases goto_get s i j b pc hj with ⟨-, h⟩ | h
    · rw [h]; exact hb
    · exact hpcs j pc h
  cases hs with
  | seeStop i env hpc hst => rw [hstop] at hst; cases hst
  | abandon i env hpc _ hb =>
    obtain ⟨req, hr⟩ := buildsRequest_of_eq cfg env _ hb he
    cases hr
  | nilHeader i env _ _ hb =>
    obtain ⟨req, hr⟩ := buildsRequest_of_eq cfg env _ hb he
    cases hr
  | nilDo i env _ _ hb =>
    obtain ⟨req, hr⟩ := buildsRequest_of_eq cfg env _ hb he
    cases hr
  | send i env req hpc _ _ =>
    have hg := inFlight_goto s i _ PC.doing hpc
    simp only [PC.inFlight] at hg
    refine ⟨htot, hreq, hstop, hpan, frame i _ (Or.inr (Or.inl rfl)), ?_⟩
    show s.errorCount + (s.goto i PC.doing).inFlight = (req :: s.sent).length
    simp only [List.length_cons]
    omega
  | respond i st hpc => simp [Event.allFail] at he
  | addTotal i hpc =>
    rcases hpcs i _ hpc with h | h | h <;> cases h
  | fail i hpc =>
    have hg := inFlight_goto s i _ PC.recorded hpc
    simp only [PC.inFlight] at hg
    refine ⟨htot, hreq, hstop, hpan, frame i _ (Or.inr (Or.inr rfl)), ?_⟩
    show s.errorCount + 1 + (s.goto i PC.recorded).inFlight = s.sent.length
    omega
  | quotaHit i hpc _ hge =>
    rw [htot] at hge
    have : (0 : Int) < cfg.requests := hn
    simp only [Nat.cast_zero] at hge
    omega
  | quotaMiss i hpc _ =>
    have hg := inFlight_goto s i _ PC.loop hpc
    simp only [PC.inFlight] at hg
    refine ⟨htot, hreq, hstop, hpan, frame i _ (Or.inl rfl), ?_⟩
    show s.errorCount + (s.goto i PC.loop).inFlight = s.sent.length
    omega
  | fire i hpc =>
    rcases hpcs i _ hpc with h | h | h <;> cases h
  | timer _ => simp [Event.allFail] at he
  | interrupt => simp [Event.allFail] at he

theorem inFlight_replicate_loop (k : Nat) :
    ((List.replicate k PC.loop).map PC.inFlight).sum = 0 := by
  induction k with
  | zero => rfl
  | succ k ih => simp [List.replicate_succ, PC.inFlight]

theorem failInv_init (cfg : Config) : FailInv (init cfg) := by
  refine ⟨rfl, rfl, rfl, rfl, ?_, ?_⟩
  · intro i pc hi
    simp only [init, List.getElem?_replicate] at hi
    split at hi
    · injection hi with hi; exact Or.inl hi.symm
    · cases hi
  · show 0 + ((List.replicate (poolSize cfg) PC.loop).map PC.inFlight).sum = 0
    rw [inFlight_replicate_loop]

theorem failInv_run (cfg : Config) (hn : cfg.requests > 0) (tr : List Event)
    (hall : ∀ e ∈ tr, e.allFail cfg = true) : FailInv (run cfg tr) :=
  run_induction_of cfg (Event.allFail cfg) FailInv (failInv_init cfg)
    (fun s e s1 _ hi he hs => failInv_step cfg hn s e s1 hi he hs) tr hall

/-- C6 fails on the code: `-n` is documented as the total number of requests
(line 29) and the report prints Total as `total + errorCount` (line 163), but
the quota test of line 148 reads `total` alone.  With quota 5 and one worker,
after five attempts that all failed the worker has not returned and the stop
signal is unset, and a sixth attempt is made: the counters read Total 6,
Success 0, Errors 6. -/
theorem quota_not_reached_by_failures :
    (run { requests := 5 } fiveFailures).report = (5, 0, 5) ∧
    (run { requests := 5 } fiveFailures).workers = [PC.loop] ∧
    (run { requests := 5 } fiveFailures).stopped = false ∧
    (run { requests := 5 } fiveFailures).complete = false ∧
    (run { requests := 5 } (fiveFailures ++ [.begin 0 {}, .fail 0])).report = (6, 0, 6) := by
  refine ⟨by rfl, by rfl, by rfl, by rfl, by rfl⟩

/-- How far the uncounted failures go: with quota `n > 0`, in a run where every
attempt fails with a transport error and neither the timer nor a signal fires,
the quota test never succeeds: in every reachable state `total` and
`requestCount` are 0, every request handed to `client.Do` is counted in
`errorCount` or still in flight, the stop signal is unset, nothing panicked, no
worker has returned or is about to request the stop, and a pool of at least one
worker is never complete. -/
theorem all_failures_never_reach_quota (cfg : Config) (n : Nat) (tr : List Event)
    (hn : cfg.requests = n) (h0 : 0 < n)
    (hall : ∀ e ∈ tr, e.allFail cfg = true) :
    (run cfg tr).report = ((run cfg tr).errorCount, 0, (run cfg tr).errorCount) ∧
    (run cfg tr).requestCount = 0 ∧
    (run cfg tr).errorCount + (run cfg tr).inFlight = (run cfg tr).sent.length ∧
    (run cfg tr).stopped = false ∧
    (run cfg tr).panicked = none ∧
    (∀ (i : Nat) (pc : PC), (run cfg tr).workers[i]? = some pc →
      pc ≠ PC.exited ∧ pc ≠ PC.stopping) ∧
    (1 ≤ poolSize cfg → (run cfg tr).complete = false) := by
  have hpos : cfg.requests > 0 := by rw [hn]; exact_mod_cast h0
  obtain ⟨htot, hreq, hstop, hpan, hpcs, hsent⟩ := failInv_run cfg hpos tr hall
  have hlen := (quotaInv_run cfg hpos tr).1
  refine ⟨by simp [State.report, htot], hreq, hsent, hstop, hpan, ?_, ?_⟩
  · intro i pc hi
    rcases hpcs i pc hi with h | h | h <;> rw [h] <;> exact ⟨by decide, by decide⟩
  · intro hp
    cases hc : (run cfg tr).complete
    · rfl
    · have h0x := first_worker_exited _ hc (by rw [hlen]; exact hp)
      rcases hpcs 0 _ h0x with h | h | h <;> cases h

/-- At quota 5 with a single worker: after five failed attempts and a sixth the
counters read `(6, 0, 6)` and the run is not complete. -/
theorem all_failures_never_reach_quota_witness :
    (run { requests := 5 } (fiveFailures ++ [.begin 0 {}, .fail 0])).errorCount = 6 ∧
    (run { requests := 5 } (fiveFailures ++ [.begin 0 {}, .fail 0])).report
      = ((run { requests := 5 } (fiveFailures ++ [.begin 0 {}, .fail 0])).errorCount, 0,
         (run { requests := 5 } (fiveFailures ++ [.begin 0 {}, .fail 0])).errorCount) ∧
    (run { requests := 5 } (fiveFailures ++ [.begin 0 {}, .fail 0])).complete = false := by
  have h := all_failures_never_reach_quota { requests := 5 } 5
    (fiveFailures ++ [.begin 0 {}, .fail 0]) rfl (by decide) (by decide)
  exact ⟨by rfl, h.1, h.2.2.2.2.2.2 (by decide)⟩

/-! ## Start-up -/

/-- The start-up ends the process exactly when the body names a file that
cannot be read. -/
theorem resolveBody_fatal_iff (body : Str) (readFile : Str → Option Str) :
    resolveBody body readFile = none ↔ ∃ f, body = '@' :: f ∧ readFile f = none := by
  unfold resolveBody
  split
  · rename_i f
    constructor
    · intro h; exact ⟨f, rfl, h⟩
    · rintro ⟨g, hg, hr⟩
      injection hg with _ hg
      rw [hg]; exact hr
  · rename_i hnot
    constructor
    · intro h; cases h
    · rintro ⟨g, hg, -⟩
      exact absurd hg (hnot g)
end Cannon
